import Mathlib

/-!
# Chunked file transfer over streaming RPC

A shallow embedding of `server/server.go` and `client/client.go`: the
read-and-send loops of the two drivers, the receive-and-write loops of the two
receivers, and the handlers around them.  Files, streams and the file system
are explicit values that are passed through the code; a Go runtime fault is an
explicit outcome.
-/

namespace testgrpc

/-! ## Data model -/

/-- One byte of file content, as a number. -/
abbrev Byte := Nat

/-- The `Content` field of a `pb.Chunk` message. -/
abbrev Chunk := List Byte

/-- A Go string, as its characters. -/
abbrev GoString := List Char

/-- Stream metadata (`metadata.MD`): keys with their lists of values. -/
abbrev MD := List (String × List GoString)

/-- The constant `Size4MB` of both programs: the length of the read buffer. -/
def Size4MB : Nat := 4 * 1024 * 1024

/-- Go `error` values that the two programs meet. -/
inductive GoError
  | EOF
  | errno (msg : String)
  | status (code : String) (msg : String)
  | wrapf (cause : GoError) (msg : String)
  deriving DecidableEq, Repr

/-- The `pb.StatusCode` enumeration. -/
inductive StatusCode
  | Ok
  | Failed
  deriving DecidableEq, Repr

/-- How a Go function call ends: it returns (with a nil or non-nil `error`),
the run time faults, or `log.Fatal` terminates the process with a message
and the error it prints. -/
inductive Outcome
  | returned (err : Option GoError)
  | panicked (msg : String)
  | fatal (msg : String) (cause : Option GoError)
  deriving DecidableEq, Repr

/-- Go `int` arithmetic on a 64-bit platform: results wrap to the signed range. -/
def wrapInt (x : Int) : Int := (x + 2 ^ 63) % 2 ^ 64 - 2 ^ 63

/-! ## Files -/

/-- An open `*os.File` on a regular file: the file's bytes, the handle's
offset, and the two ways the device can fail: `quota` is the largest size the
file may grow to (a write past it is cut short and reports an error), `badAt`
an offset from which on reads report an error. -/
structure File where
  content : List Byte
  offset : Nat
  quota : Option Nat
  badAt : Option Nat
  deriving DecidableEq, Repr

/-- The number of bytes a read at the handle's offset can deliver. -/
def File.readable (f : File) : Nat :=
  match f.badAt with
  | none => f.content.length - f.offset
  | some b => min (f.content.length - f.offset) (b - f.offset)

/-- Whether a read at the handle's offset hits the bad region. -/
def File.readFails (f : File) : Bool :=
  match f.badAt with
  | none => false
  | some b => decide (b ≤ f.offset)

/-- Call `file.Read(buf)` with `len(buf) = k`: the new handle, `buf[:n]` and the
error.  At the end of the file a non-empty buffer gets `0, io.EOF`. -/
def File.Read (f : File) (k : Nat) : File × Chunk × Option GoError :=
  if f.readFails then (f, [], some (GoError.errno "input/output error"))
  else
    let n := min k f.readable
    if n = 0 ∧ 0 < k then (f, [], some GoError.EOF)
    else ({ f with offset := f.offset + n }, (f.content.drop f.offset).take n, none)

/-- Call `file.Write(b)`: the new handle, the count written and the error.
Bytes are written at the offset over what is there; the rest of the file stays. -/
def File.Write (f : File) (b : Chunk) : File × Nat × Option GoError :=
  let room := match f.quota with
    | none => b.length
    | some q => min b.length (q - f.offset)
  ({ f with
      content := f.content.take f.offset ++ List.replicate (f.offset - f.content.length) 0
        ++ b.take room ++ f.content.drop (f.offset + room)
      offset := f.offset + room },
   room,
   if room < b.length then some (GoError.errno "no space left on device") else none)

/-! ## Streams -/

/-- The sending side of a chunk stream: the messages sent so far, and the
number of messages after which the transport breaks (if it does). -/
structure SendStream where
  sent : List Chunk
  breakAt : Option Nat
  deriving DecidableEq, Repr

/-- Call `stream.Send(&pb.Chunk{Content: c})`. -/
def SendStream.Send (s : SendStream) (c : Chunk) : SendStream × Option GoError :=
  match s.breakAt with
  | none => ({ s with sent := s.sent ++ [c] }, none)
  | some k =>
    if k ≤ s.sent.length then (s, some (GoError.errno "transport is closing"))
    else ({ s with sent := s.sent ++ [c] }, none)

/-! ## Drivers: the read-and-send loops -/

namespace client

/-- The loop of `upload` (client.go, lines 77-102) from the opened file and the
opened stream on: `some (true, ..)` when the loop ends by `break` at `io.EOF`,
`some (false, ..)` when it logs an error and returns, `none` when the
iterations allowed are used up. -/
def uploadLoop : Nat → File → SendStream → Option (Bool × File × SendStream)
  | 0, _, _ => none
  | fuel + 1, file, stream =>
    match file.Read Size4MB with
    | (file1, _, some err) =>
      if err = GoError.EOF then some (true, file1, stream)
      else some (false, file1, stream)
    | (file1, data, none) =>
      match stream.Send data with
      | (stream1, some _) => some (false, file1, stream1)
      | (stream1, none) => uploadLoop fuel file1 stream1

end client

namespace server

/-- The loop of `Download` (server.go, lines 125-149) and the `return nil`
after it: the error returned, with the file and the stream as they are left;
`none` when the iterations allowed are used up. -/
def downloadLoop : Nat → File → SendStream → Option (Option GoError × File × SendStream)
  | 0, _, _ => none
  | fuel + 1, file, stream =>
    match file.Read Size4MB with
    | (file1, _, some err) =>
      if err = GoError.EOF then some (none, file1, stream)
      else some (some (GoError.wrapf err
        "failed unexpectadely while reading chunks from stream"), file1, stream)
    | (file1, data, none) =>
      match stream.Send data with
      | (stream1, some err) => some (some (GoError.wrapf err
          "failed unexpectadely while sending chunks to stream"), file1, stream1)
      | (stream1, none) => downloadLoop fuel file1 stream1

end server

/-! ## Library functions the handlers call -/

namespace strconv

/-- The error `strconv.ErrSyntax`. -/
def ErrSyntax : GoError := GoError.errno "invalid syntax"

/-- The error `strconv.ErrRange`. -/
def ErrRange : GoError := GoError.errno "value out of range"

/-- The largest `uint64`. -/
def maxUint64 : Nat := 2 ^ 64 - 1

/-- The digit loop of the fast path of `Atoi`: `n = n*10 + int(ch)` for every
character, from `n = acc`; `none` at a character that is not a digit. -/
def digits : List Char → Nat → Option Nat
  | [], acc => some acc
  | c :: cs, acc =>
    if '0' ≤ c ∧ c ≤ '9' then digits cs (acc * 10 + (c.toNat - '0'.toNat)) else none

/-- The digit loop of `ParseUint(s, 10, 64)`, from `n`: a character that is
not a digit ends it with a syntax error, a digit that would take the number
past `uint64` ends it with the largest `uint64` and a range error, before the
characters after it are read. -/
def parseUintLoop : List Char → Nat → Nat × Option GoError
  | [], n => (n, none)
  | c :: cs, n =>
    if '0' ≤ c ∧ c ≤ '9' then
      if maxUint64 / 10 + 1 ≤ n then (maxUint64, some ErrRange)
      else if maxUint64 < n * 10 + (c.toNat - '0'.toNat) then (maxUint64, some ErrRange)
      else parseUintLoop cs (n * 10 + (c.toNat - '0'.toNat))
    else (0, some ErrSyntax)

/-- Go's `strconv.ParseUint(s, 10, 64)`. -/
def ParseUint (s : GoString) : Nat × Option GoError :=
  if s = [] then (0, some ErrSyntax) else parseUintLoop s 0

/-- Go's `strconv.ParseInt(s, 10, 0)` on a 64-bit platform: a syntax error of
`ParseUint` gives `0`; a number outside the `int` range gives the nearest bound
and a range error. -/
def ParseInt (s : GoString) : Int × Option GoError :=
  if s = [] then (0, some ErrSyntax)
  else
    let neg := s.head? = some '-'
    let body := if s.head? = some '+' ∨ s.head? = some '-' then s.tail else s
    match ParseUint body with
    | (un, err) =>
      if err ≠ none ∧ err ≠ some ErrRange then (0, err)
      else if ¬ neg ∧ 2 ^ 63 ≤ un then (2 ^ 63 - 1, some ErrRange)
      else if neg ∧ 2 ^ 63 < un then (-(2 ^ 63), some ErrRange)
      else if neg then (-(un : Int), none)
      else ((un : Int), none)

/-- Go's `strconv.Atoi` on a 64-bit platform: the value and the error.  Strings
of 1 to 18 characters take the fast path (sign, then digits, a syntax error
with value 0 at anything else); all others go through `ParseInt`. -/
def Atoi (s : GoString) : Int × Option GoError :=
  if 0 < s.length ∧ s.length < 19 then
    let body := if s.head? = some '-' ∨ s.head? = some '+' then s.tail else s
    if body.length < 1 then (0, some ErrSyntax)
    else
      match digits body 0 with
      | none => (0, some ErrSyntax)
      | some n => if s.head? = some '-' then (-(n : Int), none) else ((n : Int), none)
  else ParseInt s

/-- Go's `strconv.Itoa`. -/
def Itoa (n : Int) : GoString :=
  if n < 0 then '-' :: Nat.toDigits 10 n.natAbs else Nat.toDigits 10 n.natAbs

end strconv

namespace path

/-- The inner loop of `Clean` at a `..` element, after `out.w--`:
`for out.w > dotdot && out.index(out.w) != '/' { out.w-- }`, from `out.w = w`. -/
def backtrack (out : List Char) (dotdot : Nat) : Nat → Nat
  | 0 => 0
  | w + 1 =>
    if dotdot < w + 1 ∧ out.getD (w + 1) '/' ≠ '/' then backtrack out dotdot w else w + 1

/-- The main loop of Go's `path.Clean`: `path` is what is left to read (from
index `r` on), `out` what has been written (`buf[:w]`), `dotdot` the index where
`..` must stop.  Every iteration reads at least one character, so the length
of the path is enough iterations. -/
def cleanLoop (rooted : Bool) : Nat → List Char → List Char → Nat → List Char
  | 0, _, out, _ => out
  | _ + 1, [], out, _ => out
  | fuel + 1, c :: rest, out, dotdot =>
    if c = '/' then
      -- empty path element
      cleanLoop rooted fuel rest out dotdot
    else if c = '.' ∧ (rest = [] ∨ rest.head? = some '/') then
      -- . element
      cleanLoop rooted fuel rest out dotdot
    else if c = '.' ∧ rest.head? = some '.' ∧ (rest.tail = [] ∨ rest.tail.head? = some '/') then
      -- .. element: remove to last /
      if dotdot < out.length then
        cleanLoop rooted fuel rest.tail (out.take (backtrack out dotdot (out.length - 1))) dotdot
      else if rooted = false then
        let out1 := (if 0 < out.length then out ++ ['/'] else out) ++ ['.', '.']
        cleanLoop rooted fuel rest.tail out1 out1.length
      else cleanLoop rooted fuel rest.tail out dotdot
    else
      -- real path element: add slash if needed, copy element
      let out1 :=
        if (rooted = true ∧ out.length ≠ 1) ∨ (rooted = false ∧ out.length ≠ 0) then out ++ ['/']
        else out
      cleanLoop rooted fuel ((c :: rest).dropWhile (fun x => x ≠ '/'))
        (out1 ++ (c :: rest).takeWhile (fun x => x ≠ '/')) dotdot

/-- Go's `path.Clean`. -/
def Clean (path : GoString) : GoString :=
  if path = [] then ['.']
  else
    let out :=
      if path.head? = some '/' then cleanLoop true path.length path.tail ['/'] 1
      else cleanLoop false path.length path [] 0
    if out.length = 0 then ['.'] else out

/-- Go's `path.Join`: the non-empty elements with a slash between them, cleaned. -/
def Join (elem : List GoString) : GoString :=
  if (elem.map List.length).sum = 0 then []
  else
    Clean (elem.foldl (fun buf e =>
      if 0 < buf.length ∨ e ≠ [] then (if 0 < buf.length then buf ++ ['/'] else buf) ++ e
      else buf) [])

end path

/-! ## The file system -/

/-- The regular files of a file system by path, whether it refuses to open a
file for writing, and the device limits that every handle inherits. -/
structure FS where
  files : List (GoString × List Byte)
  readOnly : Bool
  quota : Option Nat
  badAt : Option Nat

namespace os

/-- Go's `os.Stat`, as far as the programs use it: the size of the file, or the error. -/
def Stat (fs : FS) (name : GoString) : Except GoError Nat :=
  match fs.files.lookup name with
  | none => Except.error (GoError.errno "no such file or directory")
  | some content => Except.ok content.length

/-- Go's `os.Open`: a handle at offset 0 on an existing file. -/
def Open (fs : FS) (name : GoString) : Except GoError File :=
  match fs.files.lookup name with
  | none => Except.error (GoError.errno "no such file or directory")
  | some content => Except.ok ⟨content, 0, fs.quota, fs.badAt⟩

/-- Go's `os.OpenFile(name, os.O_CREATE|os.O_RDWR, 0644)`: a handle at offset 0 on
the file as it is, or on a new empty file; the flags do not truncate. -/
def OpenFile (fs : FS) (name : GoString) : Except GoError File :=
  if fs.readOnly then Except.error (GoError.errno "permission denied")
  else
    match fs.files.lookup name with
    | none => Except.ok ⟨[], 0, fs.quota, fs.badAt⟩
    | some content => Except.ok ⟨content, 0, fs.quota, fs.badAt⟩

end os

/-- The Go map index `md[key]`: the values under the key, nil when there are none. -/
def MD.get (md : MD) (key : String) : List GoString :=
  match md.lookup key with
  | none => []
  | some vs => vs

/-! ## Receivers -/

/-- What a handler does that its peer or the file system can observe, in order. -/
inductive Event
  | log
  | openFile (name : GoString)
  | recv (data : Chunk)
  | write (data : Chunk)
  | sendAndClose (code : StatusCode)
  | sendHeader (md : MD)
  deriving DecidableEq, Repr

/-- The receiving side of one call: the metadata of the incoming context (none
when `FromIncomingContext` reports `ok = false`), the chunks `Recv` delivers, the
error `Recv` returns after them (`io.EOF` for a clean end), and what
`SendAndClose` returns. -/
structure UploadCall where
  md : Option MD
  chunks : List Chunk
  ending : GoError
  closeErr : Option GoError

/-- What an `Upload` call leaves behind. -/
structure UploadResult where
  outcome : Outcome
  trace : List Event
  file : Option File
  deriving DecidableEq, Repr

/-- The status calls in a trace. -/
def statuses : List Event → List StatusCode
  | [] => []
  | Event.sendAndClose code :: es => code :: statuses es
  | _ :: es => statuses es

/-- The type `server` of server.go: the directory it serves. -/
structure server where
  Dir : GoString

namespace server

/-- The loop of `Upload` (server.go, lines 81-92): `size` and `file` are the
loop's variables, the list is what `stream.Recv` still delivers before it
returns `ending`.  The result is the error returned from inside the loop (none
when the loop ends by `break`), with `size`, the file and the trace. -/
def uploadLoop (ending : GoError) :
    List Chunk → Int → File → List Event → Option GoError × Int × File × List Event
  | [], size, file, trace =>
    if ending = GoError.EOF then (none, size, file, trace)
    else (some (GoError.wrapf ending
      "failed unexpectadely while reading chunks from stream"), size, file, trace)
  | data :: rest, size, file, trace =>
    uploadLoop ending rest (wrapInt (size + data.length)) (file.Write data).1
      (trace ++ [Event.recv data, Event.write data])

/-- The handler `Upload` (server.go, lines 64-104). -/
def Upload (s : server) (fs : FS) (stream : UploadCall) : UploadResult :=
  match stream.md with
  | none =>
    ⟨Outcome.returned (some (GoError.status "DataLoss"
      "ClientStreamingEcho: failed to get metadata")), [], none⟩
  | some md =>
    match md.get "filename" with
    | [] => ⟨Outcome.panicked "index out of range [0] with length 0", [], none⟩
    | filename :: _ =>
      match md.get "size" with
      | [] => ⟨Outcome.panicked "index out of range [0] with length 0", [], none⟩
      | sizeText :: _ =>
        let filesize := (strconv.Atoi sizeText).1
        let dest := path.Join [s.Dir, filename]
        match os.OpenFile fs dest with
        | Except.error err => ⟨Outcome.returned (some err), [Event.log, Event.openFile dest], none⟩
        | Except.ok file =>
          match uploadLoop stream.ending stream.chunks 0 file [Event.log, Event.openFile dest] with
          | (some err, _, file1, trace) => ⟨Outcome.returned (some err), trace, some file1⟩
          | (none, size, file1, trace) =>
            let statusCode := if size ≠ filesize then StatusCode.Failed else StatusCode.Ok
            ⟨Outcome.returned stream.closeErr, trace ++ [Event.sendAndClose statusCode],
              some file1⟩

/-- What a `Download` call leaves behind: the headers published and the chunk
stream as the handler leaves it. -/
structure DownloadResult where
  outcome : Outcome
  trace : List Event
  stream : SendStream
  deriving DecidableEq, Repr

/-- The handler `Download` (server.go, lines 107-150).  `now` is the formatted
time, `breakAt` the number of chunks after which the transport breaks.  A
failed `os.Stat` returns a nil `FileInfo`, and `stats.Size()` on it faults. -/
def Download (s : server) (fs : FS) (now : GoString) (breakAt : Option Nat) (name : GoString)
    (fuel : Nat) : Option DownloadResult :=
  let filepath := path.Join [s.Dir, name]
  match os.Stat fs filepath with
  | Except.error _ =>
    some ⟨Outcome.panicked "invalid memory address or nil pointer dereference",
      [Event.log, Event.log], ⟨[], breakAt⟩⟩
  | Except.ok size =>
    let header : MD := [("filename", [name]), ("timestamp", [now]),
      ("size", [strconv.Itoa size])]
    match os.Open fs filepath with
    | Except.error err =>
      some ⟨Outcome.returned (some err), [Event.log, Event.sendHeader header], ⟨[], breakAt⟩⟩
    | Except.ok file =>
      match downloadLoop fuel file ⟨[], breakAt⟩ with
      | none => none
      | some (err, _, stream1) =>
        some ⟨Outcome.returned err, [Event.log, Event.sendHeader header], stream1⟩

end server

namespace client

/-- What the client gets from a `Download` call: the error of the call, the
header or the error of `stream.Header`, the chunks `Recv` delivers and the error
it returns after them. -/
structure DownloadReply where
  callErr : Option GoError
  header : Except GoError MD
  chunks : List Chunk
  ending : GoError

/-- The loop of `download` (client.go, lines 134-144): the error that
`log.Fatal` gets inside the loop (none when the loop ends by `break`), with
`size` and the file. -/
def downloadLoop (ending : GoError) : List Chunk → Int → File → Option GoError × Int × File
  | [], size, file =>
    if ending = GoError.EOF then (none, size, file) else (some ending, size, file)
  | data :: rest, size, file =>
    downloadLoop ending rest (wrapInt (size + data.length)) (file.Write data).1

/-- The function `download` (client.go, lines 111-148): how it ends, and the
local file as it is left. -/
def download (fs : FS) (reply : DownloadReply) : Outcome × Option File :=
  match reply.callErr with
  | some err => (Outcome.fatal "failed to call ServerStreamingEcho: %v" (some err), none)
  | none =>
    match reply.header with
    | Except.error err => (Outcome.fatal "failed to get header from stream: %v" (some err), none)
    | Except.ok header =>
      match header.get "filename" with
      | [] => (Outcome.panicked "index out of range [0] with length 0", none)
      | filename :: _ =>
        match header.get "size" with
        | [] => (Outcome.panicked "index out of range [0] with length 0", none)
        | sizeText :: _ =>
          let filesize := (strconv.Atoi sizeText).1
          match os.OpenFile fs (['.', '/'] ++ filename) with
          | Except.error err => (Outcome.fatal "" (some err), none)
          | Except.ok file =>
            match downloadLoop reply.ending reply.chunks 0 file with
            | (some err, _, file1) => (Outcome.fatal "" (some err), some file1)
            | (none, size, file1) =>
              if size ≠ filesize then
                (Outcome.fatal "recv size not matched data size" none, some file1)
              else (Outcome.returned none, some file1)

end client

/-! ## Concrete inputs -/

/-- A server that serves `/srv/data`. -/
def dataServer : server := ⟨"/srv/data".toList⟩

/-- A writable file system with no files and no device limits. -/
def emptyFS : FS := ⟨[], false, none, none⟩

/-- A file system in which `/srv/data/a.txt` holds five bytes already. -/
def usedFS : FS := ⟨[("/srv/data/a.txt".toList, [9, 9, 9, 9, 9])], false, none, none⟩

/-- A file system on a full device: no file can grow. -/
def fullFS : FS := ⟨[], false, some 0, none⟩

/-- The metadata the client sends with an upload: time, base name and size. -/
def uploadMD (filename size : String) : MD :=
  [("timestamp", ["Nov  4 10:00:00.000000000".toList]), ("filename", [filename.toList]),
    ("size", [size.toList])]

/-- Metadata with no `filename` entry. -/
def namelessMD : MD := [("timestamp", ["Nov  4 10:00:00.000000000".toList]), ("size", ["3".toList])]

/-! ## Notions the statements use -/

/-- The events of receiving and writing the chunks, one after the other. -/
def chunkEvents : List Chunk → List Event
  | [] => []
  | c :: cs => Event.recv c :: Event.write c :: chunkEvents cs

/-- The content of a file after `data` is written at `offset` over what is there. -/
def overwrite (content : List Byte) (offset : Nat) (data : List Byte) : List Byte :=
  content.take offset ++ data ++ content.drop (offset + data.length)

/-- The runs of a path between its slashes. -/
def path.split : List Char → List (List Char)
  | [] => [[]]
  | c :: cs =>
    if c = '/' then [] :: path.split cs
    else
      match path.split cs with
      | [] => [[c]]
      | e :: es => (c :: e) :: es

/-- The elements of a path: the runs between its slashes, without the empty
ones and without `.`. -/
def path.elems (p : GoString) : List GoString :=
  (path.split p).filter (fun e => decide (e ≠ [] ∧ e ≠ ['.']))

/-- What `Clean` has written once it has copied the element `name` after `out`. -/
def path.addElem (rooted : Bool) (out name : List Char) : List Char :=
  (if (rooted = true ∧ out.length ≠ 1) ∨ (rooted = false ∧ out.length ≠ 0) then out ++ ['/']
    else out) ++ name

/-- The path of the entry `name` of the directory with the clean path `dir`. -/
def path.child (dir name : GoString) : GoString :=
  if dir = ['.'] then name else if dir = ['/'] then '/' :: name else dir ++ '/' :: name

/-- What `Clean` has written of a relative path is empty, or starts with an
element that is not `.` (and not with a slash). -/
def path.Good (out : List Char) : Prop :=
  ∀ c rest, out = c :: rest → c ≠ '/' ∧ ¬ (c = '.' ∧ (rest = [] ∨ rest.head? = some '/'))

/-- The chunk lengths that a file of `r` remaining bytes is sent in: full
buffers, then the shorter rest when there is one. -/
def chunkLens (r : Nat) : List Nat :=
  List.replicate (r / Size4MB) Size4MB ++ (if r % Size4MB = 0 then [] else [r % Size4MB])

/-! ## Theorems -/

/-! ### The library models on the examples of their documentation -/

/-- The model of `path.Clean` on the examples of the Go documentation. -/
theorem path.Clean_examples :
    path.Clean "a/c".toList = "a/c".toList
    ∧ path.Clean "a//c".toList = "a/c".toList
    ∧ path.Clean "a/c/.".toList = "a/c".toList
    ∧ path.Clean "a/c/b/..".toList = "a/c".toList
    ∧ path.Clean "/../a/c".toList = "/a/c".toList
    ∧ path.Clean "/../a/b/../././/c".toList = "/a/c".toList
    ∧ path.Clean [] = ".".toList := by
  decide

/-- The model of `path.Join` on the examples of the Go documentation. -/
theorem path.Join_examples :
    path.Join ["a".toList, "b".toList, "c".toList] = "a/b/c".toList
    ∧ path.Join ["a".toList, "b/c".toList] = "a/b/c".toList
    ∧ path.Join ["a/b".toList, "c".toList] = "a/b/c".toList
    ∧ path.Join ["a/b".toList, "../../../xyz".toList] = "../xyz".toList
    ∧ path.Join [[], []] = []
    ∧ path.Join ["a".toList, []] = "a".toList
    ∧ path.Join [[], "a".toList] = "a".toList := by
  decide

/-- The model of `strconv.Atoi` on numbers, signs, and strings that are no numbers. -/
theorem strconv.Atoi_examples :
    (strconv.Atoi "4194305".toList) = (4194305, none)
    ∧ (strconv.Atoi "-12".toList) = (-12, none)
    ∧ (strconv.Atoi "+12".toList) = (12, none)
    ∧ (strconv.Atoi "12a".toList).1 = 0
    ∧ (strconv.Atoi [] ).1 = 0
    ∧ (strconv.Atoi "-".toList).1 = 0
    ∧ (strconv.Atoi "9223372036854775807".toList) = (9223372036854775807, none)
    ∧ (strconv.Atoi "9223372036854775808".toList).1 = 9223372036854775807
    ∧ (strconv.Atoi "-9223372036854775808".toList) = (-9223372036854775808, none)
    ∧ (strconv.Atoi "-9223372036854775809".toList).1 = -9223372036854775808
    ∧ (strconv.Atoi "1234567890123456789x".toList).1 = 0
    ∧ (strconv.Atoi "99999999999999999999x".toList).1 = 9223372036854775807
    ∧ strconv.Itoa 4194305 = "4194305".toList := by
  decide

theorem chunkLens_zero : chunkLens 0 = [] := by
  simp [chunkLens]

theorem Size4MB_eq : Size4MB = 4194304 := by decide
theorem Size4MB_pos : 0 < Size4MB := by decide

theorem chunkLens_step (r : Nat) (hr : 0 < r) :
    chunkLens r = min Size4MB r :: chunkLens (r - min Size4MB r) := by
  unfold chunkLens
  by_cases h : Size4MB ≤ r
  · rw [Nat.min_eq_left h, Nat.div_eq_sub_div Size4MB_pos h, Nat.mod_eq_sub_mod h,
      List.replicate_succ, List.cons_append]
  · have h' : r < Size4MB := by omega
    rw [Nat.min_eq_right (le_of_lt h'), Nat.div_eq_of_lt h', Nat.mod_eq_of_lt h', Nat.sub_self]
    simp [Nat.ne_of_gt hr]

theorem fuel_step (r fuel : Nat) (hr : 0 < r)
    (h : (r + (Size4MB - 1)) / Size4MB + 1 ≤ fuel + 1) :
    (r - min Size4MB r + (Size4MB - 1)) / Size4MB + 1 ≤ fuel := by
  by_cases hle : Size4MB ≤ r
  · rw [Nat.min_eq_left hle]
    rw [Size4MB_eq] at *
    omega
  · have h' : r < Size4MB := by omega
    rw [Nat.min_eq_right (le_of_lt h')]
    rw [Size4MB_eq] at *
    omega

theorem fuel_enough (r fuel : Nat) (h : r / Size4MB + 2 ≤ fuel) :
    (r + (Size4MB - 1)) / Size4MB + 1 ≤ fuel := by
  rw [Size4MB_eq] at *
  omega

theorem File.Read_eof (content : List Byte) (offset : Nat) (quota : Option Nat) (k : Nat)
    (hk : 0 < k) (h : content.length ≤ offset) :
    File.Read ⟨content, offset, quota, none⟩ k
      = (⟨content, offset, quota, none⟩, [], some GoError.EOF) := by
  have h0 : content.length - offset = 0 := by omega
  simp [File.Read, File.readFails, File.readable, h0, hk]

theorem File.Read_data (content : List Byte) (offset : Nat) (quota : Option Nat) (k : Nat)
    (hk : 0 < k) (h : offset < content.length) :
    File.Read ⟨content, offset, quota, none⟩ k
      = (⟨content, offset + min k (content.length - offset), quota, none⟩,
          (content.drop offset).take (min k (content.length - offset)), none) := by
  have h0 : ¬ (min k (content.length - offset) = 0) := by omega
  simp [File.Read, File.readFails, File.readable, h0]

theorem SendStream.Send_ok (sent : List Chunk) (c : Chunk) :
    SendStream.Send ⟨sent, none⟩ c = (⟨sent ++ [c], none⟩, none) := rfl

/-- With a sound file and a sound transport, the upload loop ends at `io.EOF`
having sent the rest of the file, in chunks of the lengths `chunkLens` gives. -/
theorem client.uploadLoop_run (content : List Byte) (quota : Option Nat) :
    ∀ (fuel offset : Nat) (sent : List Chunk), offset ≤ content.length →
      (content.length - offset + (Size4MB - 1)) / Size4MB + 1 ≤ fuel →
      ∃ cs : List Chunk,
        client.uploadLoop fuel ⟨content, offset, quota, none⟩ ⟨sent, none⟩
          = some (true, ⟨content, content.length, quota, none⟩, ⟨sent ++ cs, none⟩)
        ∧ cs.flatten = content.drop offset
        ∧ cs.map List.length = chunkLens (content.length - offset) := by
  intro fuel
  induction fuel with
  | zero => intro offset sent _ hf; exact absurd hf (Nat.not_succ_le_zero _)
  | succ fuel ih =>
    intro offset sent ho hf
    by_cases hlt : offset < content.length
    · have hpos : 0 < Size4MB := Size4MB_pos
      have hn : 0 < min Size4MB (content.length - offset) := by omega
      have hfuel : (content.length - (offset + min Size4MB (content.length - offset))
          + (Size4MB - 1)) / Size4MB + 1 ≤ fuel := by
        have := fuel_step (content.length - offset) fuel (by omega) hf
        rwa [Nat.sub_add_eq]
      have hle : offset + min Size4MB (content.length - offset) ≤ content.length := by
        have := Nat.min_le_right Size4MB (content.length - offset)
        omega
      obtain ⟨cs, hrun, hflat, hlen⟩ := ih (offset + min Size4MB (content.length - offset))
        (sent ++ [(content.drop offset).take (min Size4MB (content.length - offset))])
        hle hfuel
      refine ⟨(content.drop offset).take (min Size4MB (content.length - offset)) :: cs, ?_, ?_, ?_⟩
      · rw [client.uploadLoop, File.Read_data content offset quota Size4MB hpos hlt]
        simp only [SendStream.Send_ok]
        rw [hrun]
        simp
      · rw [List.flatten_cons, hflat, ← List.drop_drop, List.take_append_drop]
      · rw [List.map_cons, hlen, chunkLens_step (content.length - offset) (by omega),
          Nat.sub_add_eq]
        congr 1
        simp
    · have he : offset = content.length := by omega
      subst he
      refine ⟨[], ?_, ?_, ?_⟩
      · rw [client.uploadLoop, File.Read_eof content content.length quota Size4MB
          Size4MB_pos (le_refl _)]
        simp
      · simp
      · simp [chunkLens_zero]

/-- The download loop does what the upload loop does, and returns nil where
the upload loop ends at `io.EOF`. -/
theorem server.downloadLoop_of_uploadLoop :
    ∀ (fuel : Nat) (file : File) (stream : SendStream) (file1 : File) (stream1 : SendStream),
      client.uploadLoop fuel file stream = some (true, file1, stream1) →
      server.downloadLoop fuel file stream = some (none, file1, stream1) := by
  intro fuel
  induction fuel with
  | zero => intro file stream file1 stream1 h; simp [client.uploadLoop] at h
  | succ fuel ih =>
    intro file stream file1 stream1 h
    rw [client.uploadLoop] at h
    rw [server.downloadLoop]
    rcases hr : file.Read Size4MB with ⟨f1, data, _ | err⟩
    · rw [hr] at h
      simp only at h ⊢
      rcases hs : stream.Send data with ⟨s1, _ | e⟩
      · rw [hs] at h
        simp only at h ⊢
        exact ih _ _ _ _ h
      · rw [hs] at h
        simp at h
    · rw [hr] at h
      simp only at h ⊢
      by_cases he : err = GoError.EOF
      · simpa [he] using h
      · simp [he] at h

/-! ### The receive-and-write loops -/

theorem wrapInt_id (x : Int) (h0 : 0 ≤ x) (h1 : x < 2 ^ 63) : wrapInt x = x := by
  unfold wrapInt
  omega

theorem File.Write_ok (content : List Byte) (offset : Nat) (bad : Option Nat) (b : Chunk)
    (h : offset ≤ content.length) :
    File.Write ⟨content, offset, none, bad⟩ b
      = (⟨overwrite content offset b, offset + b.length, none, bad⟩, b.length, none) := by
  have h0 : offset - content.length = 0 := by omega
  simp [File.Write, overwrite, h0]

theorem overwrite_length (content : List Byte) (offset : Nat) (data : List Byte)
    (h : offset ≤ content.length) :
    offset + data.length ≤ (overwrite content offset data).length := by
  simp only [overwrite, List.length_append, List.length_take, List.length_drop]
  omega

theorem overwrite_overwrite (content : List Byte) (offset : Nat) (d e : List Byte)
    (h : offset ≤ content.length) :
    overwrite (overwrite content offset d) (offset + d.length) e
      = overwrite content offset (d ++ e) := by
  have hlen : (content.take offset ++ d).length = offset + d.length := by
    simp [List.length_take, Nat.min_eq_left h]
  unfold overwrite
  rw [← hlen, List.take_left, List.drop_append, List.drop_drop, hlen, List.length_append]
  simp [List.append_assoc, Nat.add_assoc]

theorem overwrite_nil (content : List Byte) (offset : Nat) :
    overwrite content offset [] = content := by
  simp [overwrite]

theorem overwrite_zero (content data : List Byte) :
    overwrite content 0 data = data ++ content.drop data.length := by
  simp [overwrite]

/-- The error with which the upload loop ends depends on the end of the stream alone. -/
theorem server.uploadLoop_fst (ending : GoError) :
    ∀ (cs : List Chunk) (size : Int) (file : File) (trace : List Event),
      (server.uploadLoop ending cs size file trace).1
        = if ending = GoError.EOF then none
          else some (GoError.wrapf ending
            "failed unexpectadely while reading chunks from stream") := by
  intro cs
  induction cs with
  | nil => intro size file trace; unfold server.uploadLoop; split <;> rfl
  | cons c cs ih => intro size file trace; rw [server.uploadLoop]; exact ih _ _ _

/-- The upload loop records one receive and one write for each chunk, in order. -/
theorem server.uploadLoop_trace (ending : GoError) :
    ∀ (cs : List Chunk) (size : Int) (file : File) (trace : List Event),
      (server.uploadLoop ending cs size file trace).2.2.2 = trace ++ chunkEvents cs := by
  intro cs
  induction cs with
  | nil => intro size file trace; unfold server.uploadLoop; split <;> simp [chunkEvents]
  | cons c cs ih =>
    intro size file trace
    rw [server.uploadLoop, ih]
    simp [chunkEvents]

/-- Without overflow the upload loop counts the bytes of the chunks. -/
theorem server.uploadLoop_size (ending : GoError) :
    ∀ (cs : List Chunk) (size : Int) (file : File) (trace : List Event),
      0 ≤ size → size + (cs.flatten.length : Int) < 2 ^ 63 →
      (server.uploadLoop ending cs size file trace).2.1 = size + (cs.flatten.length : Int) := by
  intro cs
  induction cs with
  | nil => intro size file trace _ _; unfold server.uploadLoop; split <;> simp
  | cons c cs ih =>
    intro size file trace h0 h1
    simp only [List.flatten_cons, List.length_append, Nat.cast_add] at h1 ⊢
    rw [server.uploadLoop, wrapInt_id _ (by omega) (by omega), ih _ _ _ (by omega) (by omega)]
    omega

/-- With no quota the upload loop writes the chunks one after the other over the file. -/
theorem server.uploadLoop_file (ending : GoError) (bad : Option Nat) :
    ∀ (cs : List Chunk) (size : Int) (content : List Byte) (offset : Nat) (trace : List Event),
      offset ≤ content.length →
      (server.uploadLoop ending cs size ⟨content, offset, none, bad⟩ trace).2.2.1
        = ⟨overwrite content offset cs.flatten, offset + cs.flatten.length, none, bad⟩ := by
  intro cs
  induction cs with
  | nil =>
    intro size content offset trace _
    unfold server.uploadLoop
    split <;> simp [overwrite_nil]
  | cons c cs ih =>
    intro size content offset trace h
    rw [server.uploadLoop, File.Write_ok _ _ _ _ h]
    simp only
    rw [ih _ _ _ _ (overwrite_length content offset c h), overwrite_overwrite _ _ _ _ h]
    simp [Nat.add_assoc]

/-- The download loop of the client is the upload loop of the server without the trace. -/
theorem client.downloadLoop_eq (ending : GoError) :
    ∀ (cs : List Chunk) (size : Int) (file : File) (trace : List Event),
      client.downloadLoop ending cs size file
        = (if ending = GoError.EOF then none else some ending,
            (server.uploadLoop ending cs size file trace).2.1,
            (server.uploadLoop ending cs size file trace).2.2.1) := by
  intro cs
  induction cs with
  | nil =>
    intro size file trace
    unfold client.downloadLoop server.uploadLoop
    split <;> simp [*]
  | cons c cs ih =>
    intro size file trace
    rw [client.downloadLoop, server.uploadLoop]
    exact ih _ _ _

/-! ### The handlers around the loops -/

theorem statuses_append (xs ys : List Event) : statuses (xs ++ ys) = statuses xs ++ statuses ys := by
  induction xs with
  | nil => rfl
  | cons e es ih => cases e <;> simp [statuses, ih]

theorem statuses_chunkEvents (cs : List Chunk) : statuses (chunkEvents cs) = [] := by
  induction cs with
  | nil => rfl
  | cons c cs ih => simp [chunkEvents, statuses, ih]

theorem statuses_trace (dest : GoString) (cs : List Chunk) (code : StatusCode) :
    statuses ([Event.log, Event.openFile dest] ++ chunkEvents cs ++ [Event.sendAndClose code])
      = [code] := by
  simp [statuses_append, statuses_chunkEvents, statuses]

theorem os.OpenFile_writable (fs : FS) (name : GoString) (h : fs.readOnly = false) :
    os.OpenFile fs name = Except.ok ⟨(fs.files.lookup name).getD [], 0, fs.quota, fs.badAt⟩ := by
  unfold os.OpenFile
  rw [h]
  cases fs.files.lookup name <;> rfl

/-- With both metadata entries there and the destination opened, `Upload` is
its loop and what follows the loop. -/
theorem server.Upload_run (s : server) (fs : FS) (md : MD) (chunks : List Chunk)
    (ending : GoError) (closeErr : Option GoError) (filename sizeText : GoString)
    (rest1 rest2 : List GoString) (hfn : md.get "filename" = filename :: rest1)
    (hsz : md.get "size" = sizeText :: rest2) (hopen : fs.readOnly = false) :
    server.Upload s fs ⟨some md, chunks, ending, closeErr⟩
      = match server.uploadLoop ending chunks 0
          ⟨(fs.files.lookup (path.Join [s.Dir, filename])).getD [], 0, fs.quota, fs.badAt⟩
          [Event.log, Event.openFile (path.Join [s.Dir, filename])] with
        | (some err, _, file1, trace) => ⟨Outcome.returned (some err), trace, some file1⟩
        | (none, size, file1, trace) =>
          ⟨Outcome.returned closeErr,
            trace ++ [Event.sendAndClose
              (if size ≠ (strconv.Atoi sizeText).1 then StatusCode.Failed else StatusCode.Ok)],
            some file1⟩ := by
  simp only [server.Upload, hfn, hsz, os.OpenFile_writable fs _ hopen]

/-- The same for `download` of the client. -/
theorem client.download_run (fs : FS) (header : MD) (chunks : List Chunk) (ending : GoError)
    (filename sizeText : GoString) (rest1 rest2 : List GoString)
    (hfn : header.get "filename" = filename :: rest1)
    (hsz : header.get "size" = sizeText :: rest2) (hopen : fs.readOnly = false) :
    client.download fs ⟨none, Except.ok header, chunks, ending⟩
      = match client.downloadLoop ending chunks 0
          ⟨(fs.files.lookup (['.', '/'] ++ filename)).getD [], 0, fs.quota, fs.badAt⟩ with
        | (some err, _, file1) => (Outcome.fatal "" (some err), some file1)
        | (none, size, file1) =>
          if size ≠ (strconv.Atoi sizeText).1 then
            (Outcome.fatal "recv size not matched data size" none, some file1)
          else (Outcome.returned none, some file1) := by
  simp only [client.download, hfn, hsz, os.OpenFile_writable fs _ hopen]

theorem sum_lengths_eq (cs : List Chunk) :
    ((cs.map List.length).sum : Int) = (cs.flatten.length : Int) := by
  rw [List.length_flatten]

/-! ### Reading back a size that `Itoa` wrote -/

theorem strconv.digitChar_spec (m : Nat) (h : m < 10) :
    ('0' ≤ Nat.digitChar m ∧ Nat.digitChar m ≤ '9')
      ∧ (Nat.digitChar m).toNat - '0'.toNat = m
      ∧ Nat.digitChar m ≠ '-' ∧ Nat.digitChar m ≠ '+' := by
  interval_cases m <;> decide

theorem strconv.digits_toDigitsCore :
    ∀ (fuel n : Nat) (ds : List Char), n < fuel →
      ∃ k, ∀ acc, strconv.digits (Nat.toDigitsCore 10 fuel n ds) acc = strconv.digits ds (acc * 10 ^ k + n) := by
  intro fuel
  induction fuel with
  | zero => intro n ds h; omega
  | succ f ih =>
    intro n ds h
    have hd := strconv.digitChar_spec (n % 10) (Nat.mod_lt _ (by decide))
    rw [Nat.toDigitsCore]
    by_cases h0 : n / 10 = 0
    · rw [if_pos h0]
      refine ⟨1, fun acc => ?_⟩
      rw [strconv.digits, if_pos hd.1, hd.2.1]
      congr 1
      omega
    · rw [if_neg h0]
      obtain ⟨k, hk⟩ := ih (n / 10) (Nat.digitChar (n % 10) :: ds) (by omega)
      refine ⟨k + 1, fun acc => ?_⟩
      rw [hk, strconv.digits, if_pos hd.1, hd.2.1]
      congr 1
      rw [pow_succ]
      have := Nat.div_add_mod n 10
      nlinarith [Nat.div_add_mod n 10]

theorem strconv.head_toDigitsCore :
    ∀ (fuel n : Nat) (ds : List Char), n < fuel →
      ∃ m t, m < 10 ∧ Nat.toDigitsCore 10 fuel n ds = Nat.digitChar m :: t := by
  intro fuel
  induction fuel with
  | zero => intro n ds h; omega
  | succ f ih =>
    intro n ds h
    rw [Nat.toDigitsCore]
    by_cases h0 : n / 10 = 0
    · rw [if_pos h0]
      exact ⟨n % 10, ds, Nat.mod_lt _ (by decide), rfl⟩
    · rw [if_neg h0]
      exact ih _ _ (by omega)
theorem strconv.digits_le :
    ∀ (cs : List Char) (acc v : Nat), strconv.digits cs acc = some v → acc ≤ v := by
  intro cs
  induction cs with
  | nil =>
    intro acc v h
    simp only [strconv.digits, Option.some.injEq] at h
    omega
  | cons c cs ih =>
    intro acc v h
    rw [strconv.digits] at h
    by_cases hc : '0' ≤ c ∧ c ≤ '9'
    · rw [if_pos hc] at h
      have := ih _ _ h
      omega
    · rw [if_neg hc] at h
      exact absurd h (by simp)

/-- On digits whose value fits `uint64` the loop of `ParseUint` gives the value
that the loop of the fast path gives. -/
theorem strconv.parseUintLoop_digits :
    ∀ (cs : List Char) (acc v : Nat), strconv.digits cs acc = some v →
      v ≤ strconv.maxUint64 → strconv.parseUintLoop cs acc = (v, none) := by
  intro cs
  induction cs with
  | nil =>
    intro acc v h _
    simp only [strconv.digits, Option.some.injEq] at h
    rw [strconv.parseUintLoop, h]
  | cons c cs ih =>
    intro acc v h hv
    rw [strconv.digits] at h
    by_cases hc : '0' ≤ c ∧ c ≤ '9'
    · rw [if_pos hc] at h
      have hle := strconv.digits_le _ _ _ h
      have hmax : strconv.maxUint64 = 18446744073709551615 := by decide
      rw [strconv.parseUintLoop, if_pos hc, if_neg (by rw [hmax] at hv ⊢; omega),
        if_neg (by omega)]
      exact ih _ _ h hv
    · rw [if_neg hc] at h
      exact absurd h (by simp)

/-- What `strconv.Itoa` writes for a size in the `int` range, `strconv.Atoi` reads back. -/
theorem strconv.Atoi_Itoa (n : Nat) (h : n < 2 ^ 63) :
    strconv.Atoi (strconv.Itoa (n : Int)) = ((n : Int), none) := by
  have hnot : ¬ ((n : Int) < 0) := by omega
  obtain ⟨m, t, hm, heq⟩ := strconv.head_toDigitsCore (n + 1) n [] (Nat.lt_succ_self n)
  obtain ⟨k, hk⟩ := strconv.digits_toDigitsCore (n + 1) n [] (Nat.lt_succ_self n)
  have hd := strconv.digitChar_spec m hm
  have hdig : strconv.digits (Nat.digitChar m :: t) 0 = some n := by
    rw [← heq, hk 0]
    simp [strconv.digits]
  have hmax : strconv.maxUint64 = 18446744073709551615 := by decide
  unfold strconv.Itoa
  rw [if_neg hnot, Int.natAbs_ofNat, Nat.toDigits, heq]
  unfold strconv.Atoi
  by_cases hlen : 0 < (Nat.digitChar m :: t).length ∧ (Nat.digitChar m :: t).length < 19
  · rw [if_pos hlen]
    simp only [List.head?_cons, Option.some.injEq, hd.2.2.1, hd.2.2.2, or_self, if_false,
      hdig, List.length_cons]
    rw [if_neg (by omega)]
  · rw [if_neg hlen]
    unfold strconv.ParseInt strconv.ParseUint
    simp only [List.head?_cons, Option.some.injEq, hd.2.2.1, hd.2.2.2, or_self, if_false,
      List.cons_ne_nil,
      strconv.parseUintLoop_digits _ 0 n hdig (by rw [hmax]; omega)]
    simp
    omega

/-! ### Cleaning a path without `..` elements -/

theorem path.takeWhile_slash (xs ys : List Char) :
    (xs ++ '/' :: ys).takeWhile (fun x => x ≠ '/') = xs.takeWhile (fun x => x ≠ '/') := by
  induction xs with
  | nil => simp
  | cons a t ih =>
    simp only [List.cons_append, List.takeWhile_cons]
    split
    · rw [ih]
    · rfl

theorem path.dropWhile_slash (xs ys : List Char) :
    (xs ++ '/' :: ys).dropWhile (fun x => x ≠ '/')
      = xs.dropWhile (fun x => x ≠ '/') ++ '/' :: ys := by
  induction xs with
  | nil => simp
  | cons a t ih =>
    simp only [List.cons_append, List.dropWhile_cons]
    split
    · rw [ih]
    · rfl

theorem path.dropWhile_length_le (xs : List Char) :
    (xs.dropWhile (fun x => x ≠ '/')).length ≤ xs.length := by
  induction xs with
  | nil => simp
  | cons a t ih =>
    simp only [List.dropWhile_cons]
    split
    · exact Nat.le_succ_of_le ih
    · exact le_refl _

theorem path.takeWhile_no_slash (xs : List Char) :
    '/' ∉ xs.takeWhile (fun x => x ≠ '/') := by
  intro h
  have := List.mem_takeWhile_imp h
  simp at this

theorem path.dropWhile_form (xs : List Char) :
    xs.dropWhile (fun x => x ≠ '/') = [] ∨ ∃ r, xs.dropWhile (fun x => x ≠ '/') = '/' :: r := by
  induction xs with
  | nil => exact Or.inl rfl
  | cons a t ih =>
    by_cases ha : a = '/'
    · right
      exact ⟨t, by simp [List.dropWhile_cons, ha]⟩
    · have hp : decide (a ≠ '/') = true := decide_eq_true ha
      rw [List.dropWhile_cons]
      simp only [hp, if_true]
      exact ih

theorem path.takeWhile_eq_nil (xs : List Char) (h : xs.takeWhile (fun x => x ≠ '/') = []) :
    xs = [] ∨ xs.head? = some '/' := by
  cases xs with
  | nil => exact Or.inl rfl
  | cons a t =>
    right
    by_cases ha : a = '/'
    · rw [ha]
      rfl
    · have hp : decide (a ≠ '/') = true := decide_eq_true ha
      rw [List.takeWhile_cons] at h
      simp only [hp, if_true] at h
      exact absurd h (List.cons_ne_nil _ _)

theorem path.split_slash (r : List Char) : path.split ('/' :: r) = [] :: path.split r := by
  rw [path.split, if_pos rfl]

theorem path.split_ne_nil (p : List Char) : path.split p ≠ [] := by
  cases p with
  | nil => simp [path.split]
  | cons c cs =>
    rw [path.split]
    split
    · exact List.cons_ne_nil _ _
    · split <;> exact List.cons_ne_nil _ _

/-- A run without a slash is the one run of itself. -/
theorem path.split_run (xs : List Char) (h : '/' ∉ xs) : path.split xs = [xs] := by
  induction xs with
  | nil => rfl
  | cons c cs ih =>
    have hc : c ≠ '/' := fun h0 => h (h0 ▸ List.mem_cons_self _ _)
    have hcs : '/' ∉ cs := fun h0 => h (List.mem_cons_of_mem _ h0)
    rw [path.split, if_neg hc, ih hcs]

/-- A run without a slash before a slash is the first run. -/
theorem path.split_run_slash (xs r : List Char) (h : '/' ∉ xs) :
    path.split (xs ++ '/' :: r) = xs :: path.split r := by
  induction xs with
  | nil => exact path.split_slash r
  | cons c cs ih =>
    have hc : c ≠ '/' := fun h0 => h (h0 ▸ List.mem_cons_self _ _)
    have hcs : '/' ∉ cs := fun h0 => h (List.mem_cons_of_mem _ h0)
    rw [List.cons_append, path.split, if_neg hc, ih hcs]

theorem path.split_no_slash : ∀ (p e : List Char), e ∈ path.split p → '/' ∉ e := by
  intro p
  induction p with
  | nil =>
    intro e he
    simp only [path.split, List.mem_singleton] at he
    rw [he]
    exact List.not_mem_nil _
  | cons c cs ih =>
    intro e he
    rw [path.split] at he
    by_cases hc : c = '/'
    · rw [if_pos hc] at he
      rcases List.mem_cons.mp he with h | h
      · rw [h]
        exact List.not_mem_nil _
      · exact ih e h
    · rw [if_neg hc] at he
      cases hs : path.split cs with
      | nil => exact absurd hs (path.split_ne_nil cs)
      | cons e0 es =>
        rw [hs] at he ih
        rcases List.mem_cons.mp he with h | h
        · rw [h]
          intro hm
          rcases List.mem_cons.mp hm with h1 | h1
          · exact hc h1.symm
          · exact ih e0 (List.mem_cons_self _ _) h1
        · exact ih e (List.mem_cons_of_mem _ h)

theorem path.elems_slash (r : List Char) : path.elems ('/' :: r) = path.elems r := by
  simp [path.elems, path.split_slash]

/-- The elements of a path are single elements: not empty, not `.`, without a slash. -/
theorem path.elems_spec (p e : List Char) (he : e ∈ path.elems p) :
    e ≠ [] ∧ '/' ∉ e ∧ e ≠ ['.'] := by
  rw [path.elems, List.mem_filter] at he
  have h2 : e ≠ [] ∧ e ≠ ['.'] := by simpa using he.2
  exact ⟨h2.1, path.split_no_slash p e he.1, h2.2⟩

theorem path.cleanLoop_nil (rooted : Bool) (fuel : Nat) (out : List Char) (dd : Nat) :
    path.cleanLoop rooted fuel [] out dd = out := by
  cases fuel <;> rfl

/-- On a path without a `..` element the loop copies the elements of the path,
one after the other. -/
theorem path.cleanLoop_elems (rooted : Bool) :
    ∀ (fuel : Nat) (p out : List Char) (dd : Nat), p.length ≤ fuel →
      ['.', '.'] ∉ path.split p →
      path.cleanLoop rooted fuel p out dd = (path.elems p).foldl (path.addElem rooted) out := by
  intro fuel
  induction fuel with
  | zero =>
    intro p out dd hp _
    have hnil : p = [] := List.length_eq_zero.mp (Nat.le_zero.mp hp)
    subst hnil
    rfl
  | succ f ih =>
    intro p out dd hp hnd
    cases p with
    | nil => rfl
    | cons c rest =>
      simp only [List.length_cons] at hp
      have hrest : rest.length ≤ f := by omega
      rw [path.cleanLoop]
      by_cases hc : c = '/'
      · subst hc
        rw [if_pos rfl, path.elems_slash]
        rw [path.split_slash] at hnd
        exact ih rest out dd hrest (fun h => hnd (List.mem_cons_of_mem _ h))
      · rw [if_neg hc]
        by_cases c2 : c = '.' ∧ (rest = [] ∨ rest.head? = some '/')
        · rw [if_pos c2]
          obtain ⟨rfl, hr⟩ := c2
          cases rest with
          | nil => rw [path.cleanLoop_nil]; rfl
          | cons b r =>
            have hb : b = '/' := by simpa using hr
            subst hb
            have hs : path.split ('.' :: '/' :: r) = ['.'] :: path.split r := by
              rw [path.split, if_neg (by decide), path.split_slash]
            have he : path.elems ('.' :: '/' :: r) = path.elems ('/' :: r) := by
              simp [path.elems, hs, path.split_slash]
            rw [he]
            rw [hs] at hnd
            apply ih _ out dd hrest
            rw [path.split_slash]
            intro h
            rcases List.mem_cons.mp h with h1 | h1
            · exact absurd h1 (by decide)
            · exact hnd (List.mem_cons_of_mem _ h1)
        · rw [if_neg c2]
          by_cases c3 : c = '.' ∧ rest.head? = some '.'
              ∧ (rest.tail = [] ∨ rest.tail.head? = some '/')
          · exfalso
            obtain ⟨rfl, h1, h2⟩ := c3
            cases rest with
            | nil => simp at h1
            | cons b t =>
              have hb : b = '.' := by simpa using h1
              subst hb
              cases t with
              | nil => exact hnd (by simp [path.split])
              | cons a r =>
                have ha : a = '/' := by simpa using h2
                subst ha
                apply hnd
                rw [show ('.' :: '.' :: '/' :: r) = ['.', '.'] ++ '/' :: r from rfl,
                  path.split_run_slash _ _ (by decide)]
                exact List.mem_cons_self _ _
          · rw [if_neg c3]
            simp only
            have hpd := List.takeWhile_append_dropWhile (fun x => decide (x ≠ '/')) (c :: rest)
            have hns := path.takeWhile_no_slash (c :: rest)
            have hform := path.dropWhile_form (c :: rest)
            have hlen : ((c :: rest).dropWhile (fun x => x ≠ '/')).length ≤ rest.length := by
              rw [List.dropWhile_cons]
              have hpc : decide (c ≠ '/') = true := decide_eq_true hc
              simp only [hpc, if_true]
              exact path.dropWhile_length_le rest
            have hkeep : (c :: rest).takeWhile (fun x => x ≠ '/') ≠ []
                ∧ (c :: rest).takeWhile (fun x => x ≠ '/') ≠ ['.'] := by
              have hpc : decide (c ≠ '/') = true := decide_eq_true hc
              rw [List.takeWhile_cons]
              simp only [hpc, if_true]
              refine ⟨List.cons_ne_nil _ _, ?_⟩
              intro h
              rw [List.cons.injEq] at h
              exact c2 ⟨h.1, path.takeWhile_eq_nil rest h.2⟩
            generalize (c :: rest).takeWhile (fun x => x ≠ '/') = e at hpd hns hkeep ⊢
            generalize (c :: rest).dropWhile (fun x => x ≠ '/') = d at hpd hform hlen ⊢
            have haddE : (if (rooted = true ∧ out.length ≠ 1) ∨ (rooted = false ∧ out.length ≠ 0)
                then out ++ ['/'] else out) ++ e = path.addElem rooted out e := rfl
            rw [haddE]
            rcases hform with hd | ⟨r, hd⟩
            · subst hd
              rw [List.append_nil] at hpd
              rw [path.cleanLoop_nil, ← hpd, path.elems, path.split_run e hns]
              simp [hkeep.1, hkeep.2]
            · subst hd
              have hs : path.split (c :: rest) = e :: path.split r := by
                rw [← hpd, path.split_run_slash e r hns]
              have he : path.elems (c :: rest) = e :: path.elems r := by
                simp [path.elems, hs, hkeep.1, hkeep.2]
              rw [he, List.foldl_cons, ← path.elems_slash r]
              rw [hs] at hnd
              apply ih _ _ dd (by omega)
              rw [path.split_slash]
              intro h
              rcases List.mem_cons.mp h with h1 | h1
              · exact absurd h1 (by decide)
              · exact hnd (List.mem_cons_of_mem _ h1)

theorem path.lookahead_dot (rest name : List Char) :
    ((rest ++ '/' :: name) = [] ∨ (rest ++ '/' :: name).head? = some '/')
      ↔ (rest = [] ∨ rest.head? = some '/') := by
  cases rest <;> simp

theorem path.lookahead_dotdot (rest name : List Char) :
    ((rest ++ '/' :: name).head? = some '.'
        ∧ ((rest ++ '/' :: name).tail = [] ∨ (rest ++ '/' :: name).tail.head? = some '/'))
      ↔ (rest.head? = some '.' ∧ (rest.tail = [] ∨ rest.tail.head? = some '/')) := by
  rcases rest with _ | ⟨a, _ | ⟨b, t⟩⟩ <;> simp

theorem path.tail_append_slash (rest name : List Char) (h : rest ≠ []) :
    (rest ++ '/' :: name).tail = rest.tail ++ '/' :: name := by
  cases rest with
  | nil => exact absurd rfl h
  | cons a t => rfl

/-- The loop on a path that ends in a slash and a path without `..` elements
does what it does on the path before them, and then copies those elements. -/
theorem path.cleanLoop_append (rooted : Bool) (name : List Char)
    (hnd : ['.', '.'] ∉ path.split name) :
    ∀ (fuel1 fuel2 : Nat) (xs out : List Char) (dd : Nat),
      xs.length ≤ fuel1 → xs.length + name.length + 1 ≤ fuel2 →
      path.cleanLoop rooted fuel2 (xs ++ '/' :: name) out dd
        = (path.elems name).foldl (path.addElem rooted)
            (path.cleanLoop rooted fuel1 xs out dd) := by
  have hbase : ∀ (fuel1 fuel2 : Nat) (out : List Char) (dd : Nat), name.length + 1 ≤ fuel2 →
      path.cleanLoop rooted fuel2 ([] ++ '/' :: name) out dd
        = (path.elems name).foldl (path.addElem rooted)
            (path.cleanLoop rooted fuel1 [] out dd) := by
    intro fuel1 fuel2 out dd hf
    rw [List.nil_append, path.cleanLoop_nil, ← path.elems_slash name]
    apply path.cleanLoop_elems rooted fuel2 _ out dd (by simpa using hf)
    rw [path.split_slash]
    intro h
    rcases List.mem_cons.mp h with h1 | h1
    · exact absurd h1 (by decide)
    · exact hnd h1
  intro fuel1
  induction fuel1 with
  | zero =>
    intro fuel2 xs out dd hx hf
    have hnil : xs = [] := List.length_eq_zero.mp (Nat.le_zero.mp hx)
    subst hnil
    exact hbase 0 fuel2 out dd (by simpa using hf)
  | succ f ih =>
    intro fuel2 xs out dd hx hf
    cases xs with
    | nil => exact hbase (f + 1) fuel2 out dd (by simpa using hf)
    | cons c rest =>
      obtain ⟨g, rfl⟩ : ∃ g, fuel2 = g + 1 := ⟨fuel2 - 1, by omega⟩
      simp only [List.length_cons] at hx hf
      have hrest : rest.length ≤ f := by omega
      have hg : rest.length + name.length + 1 ≤ g := by omega
      rw [List.cons_append, path.cleanLoop, path.cleanLoop]
      by_cases hc : c = '/'
      · rw [if_pos hc, if_pos hc]
        exact ih g rest out dd hrest hg
      · rw [if_neg hc, if_neg hc]
        by_cases c2 : c = '.' ∧ (rest = [] ∨ rest.head? = some '/')
        · rw [if_pos c2, if_pos ⟨c2.1, (path.lookahead_dot rest name).mpr c2.2⟩]
          exact ih g rest out dd hrest hg
        · have c2a : ¬ (c = '.' ∧ ((rest ++ '/' :: name) = []
              ∨ (rest ++ '/' :: name).head? = some '/')) :=
            fun h => c2 ⟨h.1, (path.lookahead_dot rest name).mp h.2⟩
          rw [if_neg c2, if_neg c2a]
          by_cases c3 : c = '.' ∧ rest.head? = some '.'
              ∧ (rest.tail = [] ∨ rest.tail.head? = some '/')
          · have hrne : rest ≠ [] := by
              intro h
              rw [h] at c3
              simp at c3
            have htl : rest.tail.length ≤ f := by
              rw [List.length_tail]
              omega
            have hgt : rest.tail.length + name.length + 1 ≤ g := by
              rw [List.length_tail]
              omega
            rw [if_pos c3, if_pos ⟨c3.1, (path.lookahead_dotdot rest name).mpr c3.2⟩,
              path.tail_append_slash rest name hrne]
            by_cases hb : dd < out.length
            · rw [if_pos hb, if_pos hb]
              exact ih g rest.tail _ dd htl hgt
            · rw [if_neg hb, if_neg hb]
              by_cases hr : rooted = false
              · rw [if_pos hr, if_pos hr]
                exact ih g rest.tail _ _ htl hgt
              · rw [if_neg hr, if_neg hr]
                exact ih g rest.tail _ _ htl hgt
          · have c3a : ¬ (c = '.' ∧ (rest ++ '/' :: name).head? = some '.'
                ∧ ((rest ++ '/' :: name).tail = []
                  ∨ (rest ++ '/' :: name).tail.head? = some '/')) :=
              fun h => c3 ⟨h.1, (path.lookahead_dotdot rest name).mp h.2⟩
            rw [if_neg c3, if_neg c3a]
            simp only
            rw [← List.cons_append, path.takeWhile_slash, path.dropWhile_slash]
            have hd1 : ((c :: rest).dropWhile (fun x => x ≠ '/')).length ≤ rest.length := by
              rw [List.dropWhile_cons]
              have hp : decide (c ≠ '/') = true := decide_eq_true hc
              simp only [hp, if_true]
              exact path.dropWhile_length_le rest
            exact ih g _ _ dd (by omega) (by omega)

/-! ### What the loop of `Clean` keeps true -/

theorem path.backtrack_spec (out : List Char) (dd : Nat) :
    ∀ w : Nat, path.backtrack out dd w ≤ w ∧ (dd ≤ w → dd ≤ path.backtrack out dd w)
      ∧ (path.backtrack out dd w ≤ dd ∨ out.getD (path.backtrack out dd w) '/' = '/') := by
  intro w
  induction w with
  | zero => exact ⟨le_refl _, fun h => h, Or.inl (Nat.zero_le _)⟩
  | succ w ih =>
    rw [path.backtrack]
    by_cases h : dd < w + 1 ∧ out.getD (w + 1) '/' ≠ '/'
    · rw [if_pos h]
      exact ⟨Nat.le_succ_of_le ih.1, fun _ => ih.2.1 (Nat.lt_succ_iff.mp h.1), ih.2.2⟩
    · rw [if_neg h]
      refine ⟨le_refl _, fun h' => h', ?_⟩
      by_cases h1 : dd < w + 1
      · right
        by_contra h2
        exact h ⟨h1, h2⟩
      · left
        omega

/-- The loop on an absolute path keeps the leading slash. -/
theorem path.cleanLoop_rooted_head :
    ∀ (fuel : Nat) (xs out : List Char), out.head? = some '/' →
      (path.cleanLoop true fuel xs out 1).head? = some '/' := by
  intro fuel
  induction fuel with
  | zero => intro xs out h; rw [path.cleanLoop]; exact h
  | succ f ih =>
    intro xs out h
    cases xs with
    | nil => rw [path.cleanLoop_nil]; exact h
    | cons c rest =>
      obtain ⟨o, t, rfl⟩ : ∃ o t, out = o :: t := by
        cases out with
        | nil => simp at h
        | cons o t => exact ⟨o, t, rfl⟩
      rw [path.cleanLoop]
      split
      · exact ih _ _ h
      · split
        · exact ih _ _ h
        · split
          · split
            · apply ih
              have hb := (path.backtrack_spec (o :: t) 1 ((o :: t).length - 1)).2.1
                (by simp only [List.length_cons] at *; omega)
              obtain ⟨k, hk⟩ : ∃ k, path.backtrack (o :: t) 1 ((o :: t).length - 1) = k + 1 :=
                ⟨_, (Nat.succ_pred_eq_of_pos hb).symm⟩
              rw [hk, List.take_succ_cons]
              exact h
            · split
              · rename_i hr
                exact absurd hr (by decide)
              · exact ih _ _ h
          · apply ih
            simp only
            split <;> simpa using h

theorem path.Good_nil : path.Good [] := by
  intro c rest h
  exact absurd h (by simp)

theorem path.Good_append (out ys : List Char) (h : path.Good out) (hne : out ≠ []) :
    path.Good (out ++ ys) := by
  cases out with
  | nil => exact absurd rfl hne
  | cons o t =>
    intro c rest heq
    rw [List.cons_append, List.cons.injEq] at heq
    obtain ⟨rfl, rfl⟩ := heq
    have ho := h o t rfl
    refine ⟨ho.1, ?_⟩
    rintro ⟨rfl, hr⟩
    cases t with
    | nil => exact ho.2 ⟨rfl, Or.inl rfl⟩
    | cons b u =>
      rcases hr with hr | hr
      · simp at hr
      · exact ho.2 ⟨rfl, Or.inr (by simpa using hr)⟩

theorem path.Good_dotdot : path.Good ['.', '.'] := by
  intro c rest h
  rw [List.cons.injEq] at h
  obtain ⟨rfl, rfl⟩ := h
  exact ⟨by decide, by simp⟩

theorem path.Good_elem (c : Char) (rest : List Char) (hc : c ≠ '/')
    (c2 : ¬ (c = '.' ∧ (rest = [] ∨ rest.head? = some '/'))) :
    path.Good ((c :: rest).takeWhile (fun x => x ≠ '/')) := by
  have hp : decide (c ≠ '/') = true := decide_eq_true hc
  rw [List.takeWhile_cons]
  simp only [hp, if_true]
  intro a r heq
  rw [List.cons.injEq] at heq
  obtain ⟨rfl, rfl⟩ := heq
  refine ⟨hc, ?_⟩
  rintro ⟨rfl, hr⟩
  cases rest with
  | nil => exact c2 ⟨rfl, Or.inl rfl⟩
  | cons b u =>
    by_cases hb : b = '/'
    · exact c2 ⟨rfl, Or.inr (by rw [hb]; rfl)⟩
    · have hpb : decide (b ≠ '/') = true := decide_eq_true hb
      rw [List.takeWhile_cons] at hr
      simp only [hpb, if_true] at hr
      rcases hr with hr | hr
      · simp at hr
      · simp only [List.head?_cons, Option.some.injEq] at hr
        exact hb hr

theorem path.Good_take (out : List Char) (dd w : Nat) (h : path.Good out)
    (hdd : dd = 0 ∨ 2 ≤ dd) (hle : dd ≤ w) (hw : w < out.length)
    (hstop : w ≤ dd ∨ out.getD w '/' = '/') : path.Good (out.take w) := by
  cases out with
  | nil => simpa using path.Good_nil
  | cons o t =>
    cases w with
    | zero => simpa using path.Good_nil
    | succ k =>
      have ho := h o t rfl
      intro c rest heq
      rw [List.take_succ_cons, List.cons.injEq] at heq
      obtain ⟨rfl, rfl⟩ := heq
      refine ⟨ho.1, ?_⟩
      rintro ⟨rfl, hr⟩
      cases t with
      | nil => exact ho.2 ⟨rfl, Or.inl rfl⟩
      | cons b u =>
        cases k with
        | zero =>
          rcases hstop with hs | hs
          · omega
          · simp at hs
            exact ho.2 ⟨rfl, Or.inr (by rw [hs]; rfl)⟩
        | succ j =>
          rcases hr with hr | hr
          · simp at hr
          · simp only [List.take_succ_cons, List.head?_cons, Option.some.injEq] at hr
            exact ho.2 ⟨rfl, Or.inr (by rw [hr]; rfl)⟩

/-- The loop on a relative path keeps what it has written free of a leading
slash and of a leading `.` element. -/
theorem path.cleanLoop_good :
    ∀ (fuel : Nat) (xs out : List Char) (dd : Nat), path.Good out →
      (dd = 0 ∨ (2 ≤ dd ∧ dd ≤ out.length ∧ out.take 2 = ['.', '.'])) →
      path.Good (path.cleanLoop false fuel xs out dd) := by
  intro fuel
  induction fuel with
  | zero => intro xs out dd h _; rw [path.cleanLoop]; exact h
  | succ f ih =>
    intro xs out dd h hdd
    cases xs with
    | nil => rw [path.cleanLoop_nil]; exact h
    | cons c rest =>
      rw [path.cleanLoop]
      by_cases hc : c = '/'
      · rw [if_pos hc]
        exact ih _ _ _ h hdd
      · rw [if_neg hc]
        by_cases c2 : c = '.' ∧ (rest = [] ∨ rest.head? = some '/')
        · rw [if_pos c2]
          exact ih _ _ _ h hdd
        · rw [if_neg c2]
          by_cases c3 : c = '.' ∧ rest.head? = some '.'
              ∧ (rest.tail = [] ∨ rest.tail.head? = some '/')
          · rw [if_pos c3]
            by_cases hb : dd < out.length
            · rw [if_pos hb]
              obtain ⟨hw1, hw2, hw3⟩ := path.backtrack_spec out dd (out.length - 1)
              have hle : dd ≤ path.backtrack out dd (out.length - 1) := hw2 (by omega)
              have hlt : path.backtrack out dd (out.length - 1) < out.length := by omega
              apply ih
              · exact path.Good_take out dd _ h (by omega) hle hlt hw3
              · rcases hdd with h0 | ⟨h2, _, ht⟩
                · exact Or.inl h0
                · refine Or.inr ⟨h2, ?_, ?_⟩
                  · rw [List.length_take]
                    omega
                  · rw [List.take_take, Nat.min_eq_left (by omega), ht]
            · rw [if_neg hb, if_pos rfl]
              simp only
              by_cases hlen : 0 < out.length
              · have hne : out ≠ [] := List.length_pos.mp hlen
                rw [if_pos hlen]
                apply ih
                · rw [List.append_assoc]
                  exact path.Good_append out _ h hne
                · rcases hdd with h0 | ⟨h2, hl, ht⟩
                  · omega
                  · refine Or.inr ⟨?_, le_refl _, ?_⟩
                    · simp only [List.length_append]
                      omega
                    · rw [List.append_assoc, List.take_append_of_le_length (by omega), ht]
              · have hnil : out = [] := List.length_eq_zero.mp (by omega)
                subst hnil
                rw [if_neg hlen]
                apply ih
                · exact path.Good_dotdot
                · exact Or.inr ⟨by simp, le_refl _, rfl⟩
          · rw [if_neg c3]
            simp only
            apply ih
            · by_cases hlen : out.length = 0
              · have hnil : out = [] := List.length_eq_zero.mp hlen
                subst hnil
                simpa using path.Good_elem c rest hc c2
              · have hne : out ≠ [] := fun h0 => hlen (by rw [h0]; rfl)
                split
                · rw [List.append_assoc]
                  exact path.Good_append out _ h hne
                · exact path.Good_append out _ h hne
            · rcases hdd with h0 | ⟨h2, hl, ht⟩
              · exact Or.inl h0
              · right
                split
                · refine ⟨h2, ?_, ?_⟩
                  · simp only [List.length_append]
                    omega
                  · rw [List.append_assoc, List.take_append_of_le_length (by omega), ht]
                · refine ⟨h2, ?_, ?_⟩
                  · simp only [List.length_append]
                    omega
                  · rw [List.take_append_of_le_length (by omega), ht]

/-- After a first element is copied, every further element is appended after
a slash, which is what `child` does. -/
theorem path.foldl_addElem_child (rooted : Bool) :
    ∀ (es : List GoString) (o : List Char), (∀ e ∈ es, e ≠ [] ∧ '/' ∉ e ∧ e ≠ ['.']) →
      (2 ≤ o.length ∨ (rooted = false ∧ o ≠ [] ∧ o ≠ ['.'] ∧ o ≠ ['/'])) →
      es.foldl (path.addElem rooted) o = es.foldl path.child o
        ∧ (es.foldl (path.addElem rooted) o).length ≠ 0 := by
  intro es
  induction es with
  | nil =>
    intro o _ ho
    refine ⟨rfl, ?_⟩
    rcases ho with h | ⟨_, h, _, _⟩
    · simp only [List.foldl_nil]
      omega
    · simpa using h
  | cons e es ih =>
    intro o hes ho
    have hstep : path.addElem rooted o e = path.child o e := by
      have hne1 : o ≠ ['.'] := by
        rcases ho with h | ⟨_, _, h, _⟩
        · intro h0
          rw [h0] at h
          simp at h
        · exact h
      have hne2 : o ≠ ['/'] := by
        rcases ho with h | ⟨_, _, _, h⟩
        · intro h0
          rw [h0] at h
          simp at h
        · exact h
      have hcond : (rooted = true ∧ o.length ≠ 1) ∨ (rooted = false ∧ o.length ≠ 0) := by
        rcases ho with h | ⟨hr, h, _, _⟩
        · cases rooted
          · exact Or.inr ⟨rfl, by omega⟩
          · exact Or.inl ⟨rfl, by omega⟩
        · exact Or.inr ⟨hr, fun h0 => h (List.length_eq_zero.mp h0)⟩
      rw [path.addElem, if_pos hcond, path.child, if_neg hne1, if_neg hne2]
      simp
    have hlen : 2 ≤ (path.child o e).length := by
      rw [← hstep, path.addElem, List.length_append]
      have h1 : 0 < e.length := List.length_pos.mpr (hes e (List.mem_cons_self _ _)).1
      have h2 : 0 < o.length := by
        rcases ho with h | ⟨_, h, _, _⟩
        · omega
        · exact List.length_pos.mpr h
      split
      · rw [List.length_append]
        simp only [List.length_singleton]
        omega
      · omega
    rw [List.foldl_cons, List.foldl_cons, hstep]
    exact ih _ (fun x hx => hes x (List.mem_cons_of_mem _ hx)) (Or.inl hlen)

/-- Copying elements after what `Clean` has written of a directory gives the
entries of those names below the cleaned directory. -/
theorem path.foldl_addElem (rooted : Bool) (o : List Char) (es : List GoString)
    (hes : ∀ e ∈ es, e ≠ [] ∧ '/' ∉ e ∧ e ≠ ['.'])
    (ho : (rooted = true ∧ o.head? = some '/') ∨ (rooted = false ∧ path.Good o)) :
    (if (es.foldl (path.addElem rooted) o).length = 0 then ['.']
      else es.foldl (path.addElem rooted) o)
      = es.foldl path.child (if o.length = 0 then ['.'] else o) := by
  cases es with
  | nil => rfl
  | cons e es =>
    have he := hes e (List.mem_cons_self _ _)
    have hpos : 0 < e.length := List.length_pos.mpr he.1
    have hfirst : path.addElem rooted o e = path.child (if o.length = 0 then ['.'] else o) e
        ∧ (2 ≤ (path.addElem rooted o e).length
          ∨ (rooted = false ∧ path.addElem rooted o e ≠ [] ∧ path.addElem rooted o e ≠ ['.']
            ∧ path.addElem rooted o e ≠ ['/'])) := by
      rcases ho with ⟨hr, hh⟩ | ⟨hr, hg⟩
      · subst hr
        cases o with
        | nil => simp at hh
        | cons c u =>
          have hc : c = '/' := by simpa using hh
          subst hc
          cases u with
          | nil =>
            refine ⟨by simp [path.addElem, path.child], Or.inl ?_⟩
            have hl : (path.addElem true ['/'] e).length = 1 + e.length := by
              simp [path.addElem, Nat.add_comm]
            omega
          | cons b v =>
            refine ⟨by simp [path.addElem, path.child], Or.inl ?_⟩
            simp only [path.addElem, List.length_append]
            split <;> simp <;> omega
      · subst hr
        cases o with
        | nil =>
          refine ⟨by simp [path.addElem, path.child], Or.inr ⟨rfl, ?_, ?_, ?_⟩⟩
          · simpa [path.addElem] using he.1
          · simpa [path.addElem] using he.2.2
          · intro h
            have h0 : e = ['/'] := by simpa [path.addElem] using h
            exact he.2.1 (by rw [h0]; exact List.mem_cons_self _ _)
        | cons c u =>
          have hcu := hg c u rfl
          have hne1 : c :: u ≠ ['.'] := by
            intro h
            rw [List.cons.injEq] at h
            exact hcu.2 ⟨h.1, Or.inl h.2⟩
          have hne2 : c :: u ≠ ['/'] := by
            intro h
            rw [List.cons.injEq] at h
            exact hcu.1 h.1
          refine ⟨by simp [path.addElem, path.child, hne1, hne2], Or.inl ?_⟩
          simp only [path.addElem, List.length_append]
          split <;> simp <;> omega
    have hrest := path.foldl_addElem_child rooted es (path.addElem rooted o e)
      (fun x hx => hes x (List.mem_cons_of_mem _ hx)) hfirst.2
    rw [List.foldl_cons, List.foldl_cons, if_neg hrest.2, hrest.1, hfirst.1]

/-- Joining a directory and a path without `..` elements gives the entry that
the elements of the path lead to below the cleaned directory. -/
theorem path.Join_elems (dir name : GoString) (hnd : ['.', '.'] ∉ path.split name)
    (hdir : dir = [] → ∃ c rest, name = c :: rest ∧ c ≠ '/') :
    path.Join [dir, name] = (path.elems name).foldl path.child (path.Clean dir) := by
  have hes : ∀ e ∈ path.elems name, e ≠ [] ∧ '/' ∉ e ∧ e ≠ ['.'] :=
    fun e he => path.elems_spec name e he
  cases dir with
  | nil =>
    obtain ⟨c, rest, rfl, hc⟩ := hdir rfl
    have hsum : ¬ (([[], c :: rest].map List.length).sum = 0) := by simp
    have hbuf : ([([] : GoString), c :: rest].foldl (fun buf e =>
        if 0 < buf.length ∨ e ≠ [] then (if 0 < buf.length then buf ++ ['/'] else buf) ++ e
        else buf) []) = c :: rest := by
      simp
    have hhead : ¬ ((c :: rest).head? = some '/') := by simpa using hc
    rw [path.Join, if_neg hsum, hbuf, path.Clean, if_neg (List.cons_ne_nil _ _)]
    simp only
    rw [if_neg hhead, path.cleanLoop_elems false _ _ [] 0 (le_refl _) hnd,
      path.foldl_addElem false [] _ hes (Or.inr ⟨rfl, path.Good_nil⟩)]
    rfl
  | cons d t =>
    have hsum : ¬ (([d :: t, name].map List.length).sum = 0) := by
      simp only [List.map_cons, List.map_nil, List.sum_cons, List.sum_nil, List.length_cons]
      omega
    have hbuf : ([d :: t, name].foldl (fun buf e =>
        if 0 < buf.length ∨ e ≠ [] then (if 0 < buf.length then buf ++ ['/'] else buf) ++ e
        else buf) []) = d :: (t ++ '/' :: name) := by
      simp
    rw [path.Join, if_neg hsum, hbuf, path.Clean, if_neg (List.cons_ne_nil _ _), path.Clean,
      if_neg (List.cons_ne_nil _ _)]
    simp only [List.head?_cons, Option.some.injEq, List.tail_cons, List.length_cons,
      List.length_append]
    by_cases hd : d = '/'
    · rw [if_pos hd, if_pos hd,
        path.cleanLoop_append true name hnd (t.length + 1) _ t ['/'] 1
          (Nat.le_succ _) (by omega)]
      exact path.foldl_addElem true _ _ hes
        (Or.inl ⟨rfl, path.cleanLoop_rooted_head (t.length + 1) t ['/'] rfl⟩)
    · rw [if_neg hd, if_neg hd, ← List.cons_append,
        path.cleanLoop_append false name hnd (t.length + 1) _ (d :: t) [] 0
          (le_refl _) (by simp only [List.length_cons]; omega)]
      exact path.foldl_addElem false _ _ hes
        (Or.inr ⟨rfl, path.cleanLoop_good (t.length + 1) (d :: t) [] 0 path.Good_nil
          (Or.inl rfl)⟩)

/-! ## The claims -/

/-- C1: round trip.  For every file content `B`, with a sound source file and a
sound transport, the chunks that the upload loop of the client sends, received
by the loop of `Upload` into a new file, leave that file with exactly the
bytes `B` and the count `B.length`; and the same for the chunks the loop of
`Download` sends, received by the loop of `download` of the client. -/
theorem round_trip (B : List Byte) (quota : Option Nat) (fuel : Nat) (trace : List Event)
    (hfuel : B.length / Size4MB + 2 ≤ fuel) (hsize : B.length < 2 ^ 63) :
    ∃ cs : List Chunk,
      cs.flatten = B
      ∧ client.uploadLoop fuel ⟨B, 0, quota, none⟩ ⟨[], none⟩
        = some (true, ⟨B, B.length, quota, none⟩, ⟨cs, none⟩)
      ∧ server.uploadLoop GoError.EOF cs 0 ⟨[], 0, none, none⟩ trace
        = (none, (B.length : Int), ⟨B, B.length, none, none⟩, trace ++ chunkEvents cs)
      ∧ server.downloadLoop fuel ⟨B, 0, quota, none⟩ ⟨[], none⟩
        = some (none, ⟨B, B.length, quota, none⟩, ⟨cs, none⟩)
      ∧ client.downloadLoop GoError.EOF cs 0 ⟨[], 0, none, none⟩
        = (none, (B.length : Int), ⟨B, B.length, none, none⟩) := by
  obtain ⟨cs, hrun, hflat, _⟩ := client.uploadLoop_run B quota fuel 0 [] (Nat.zero_le _)
    (fuel_enough _ _ hfuel)
  simp only [List.nil_append, List.drop_zero] at hrun hflat
  have h1 := server.uploadLoop_fst GoError.EOF cs 0 ⟨[], 0, none, none⟩ trace
  have h2 := server.uploadLoop_size GoError.EOF cs 0 ⟨[], 0, none, none⟩ trace (le_refl _)
    (by rw [hflat]; simpa using (by exact_mod_cast hsize : (B.length : Int) < 2 ^ 63))
  have h3 := server.uploadLoop_file GoError.EOF none cs 0 [] 0 trace (le_refl _)
  have h4 := server.uploadLoop_trace GoError.EOF cs 0 ⟨[], 0, none, none⟩ trace
  rw [hflat] at h2 h3
  simp only [overwrite_zero, List.length_nil, List.drop_nil, List.append_nil, Nat.zero_add,
    Int.zero_add, if_true] at h1 h2 h3
  refine ⟨cs, hflat, hrun, ?_, server.downloadLoop_of_uploadLoop _ _ _ _ _ hrun, ?_⟩
  · rw [← h1, ← h2, ← h3, ← h4]
  · rw [client.downloadLoop_eq GoError.EOF cs 0 _ trace, h2, h3]
    simp

/-- C1, at a file of three bytes. -/
theorem round_trip_witness :
    ([1, 2, 3].length / Size4MB + 2 ≤ 2 ∧ [1, 2, 3].length < 2 ^ 63) ∧
    ∃ cs : List Chunk,
      cs.flatten = [1, 2, 3]
      ∧ client.uploadLoop 2 ⟨[1, 2, 3], 0, none, none⟩ ⟨[], none⟩
        = some (true, ⟨[1, 2, 3], [1, 2, 3].length, none, none⟩, ⟨cs, none⟩)
      ∧ server.uploadLoop GoError.EOF cs 0 ⟨[], 0, none, none⟩ []
        = (none, ([1, 2, 3].length : Int), ⟨[1, 2, 3], [1, 2, 3].length, none, none⟩,
            [] ++ chunkEvents cs)
      ∧ server.downloadLoop 2 ⟨[1, 2, 3], 0, none, none⟩ ⟨[], none⟩
        = some (none, ⟨[1, 2, 3], [1, 2, 3].length, none, none⟩, ⟨cs, none⟩)
      ∧ client.downloadLoop GoError.EOF cs 0 ⟨[], 0, none, none⟩
        = (none, ([1, 2, 3].length : Int), ⟨[1, 2, 3], [1, 2, 3].length, none, none⟩) :=
  ⟨⟨by decide, by decide⟩, round_trip [1, 2, 3] none 2 [] (by decide) (by decide)⟩

/-- C2: when the metadata has its `filename` and `size` entries, the destination
opens and the chunk stream ends with `io.EOF`, `Upload` makes one status call:
with `Ok` when the lengths of the received chunks add up to the number that
`strconv.Atoi` reads from the `size` entry, with `Failed` when they do not; for
an entry that `strconv.Itoa` wrote for the size `n`, that number is `n`. -/
theorem upload_status (s : server) (fs : FS) (md : MD) (chunks : List Chunk)
    (closeErr : Option GoError) (filename sizeText : GoString) (rest1 rest2 : List GoString)
    (hfn : md.get "filename" = filename :: rest1) (hsz : md.get "size" = sizeText :: rest2)
    (hopen : fs.readOnly = false) (hsize : (chunks.map List.length).sum < 2 ^ 63) :
    statuses (server.Upload s fs ⟨some md, chunks, GoError.EOF, closeErr⟩).trace
      = [if ((chunks.map List.length).sum : Int) = (strconv.Atoi sizeText).1
          then StatusCode.Ok else StatusCode.Failed]
    ∧ ∀ n : Nat, n < 2 ^ 63 → sizeText = strconv.Itoa (n : Int) →
        statuses (server.Upload s fs ⟨some md, chunks, GoError.EOF, closeErr⟩).trace
          = [if (chunks.map List.length).sum = n then StatusCode.Ok else StatusCode.Failed] := by
  suffices main : statuses (server.Upload s fs ⟨some md, chunks, GoError.EOF, closeErr⟩).trace
      = [if ((chunks.map List.length).sum : Int) = (strconv.Atoi sizeText).1
          then StatusCode.Ok else StatusCode.Failed] by
    refine ⟨main, fun n hn hs => ?_⟩
    rw [main, hs, strconv.Atoi_Itoa n hn]
    by_cases h : (chunks.map List.length).sum = n
    · rw [if_pos h, if_pos (by rw [h])]
    · rw [if_neg h, if_neg (fun h1 => h (Int.ofNat_inj.mp h1))]
  rw [server.Upload_run s fs md chunks GoError.EOF closeErr filename sizeText rest1 rest2
    hfn hsz hopen]
  have h1 := server.uploadLoop_fst GoError.EOF chunks 0
    ⟨(fs.files.lookup (path.Join [s.Dir, filename])).getD [], 0, fs.quota, fs.badAt⟩
    [Event.log, Event.openFile (path.Join [s.Dir, filename])]
  have h2 := server.uploadLoop_size GoError.EOF chunks 0
    ⟨(fs.files.lookup (path.Join [s.Dir, filename])).getD [], 0, fs.quota, fs.badAt⟩
    [Event.log, Event.openFile (path.Join [s.Dir, filename])] (le_refl _)
    (by rw [← sum_lengths_eq]; simpa using (by exact_mod_cast hsize :
      ((chunks.map List.length).sum : Int) < 2 ^ 63))
  have h4 := server.uploadLoop_trace GoError.EOF chunks 0
    ⟨(fs.files.lookup (path.Join [s.Dir, filename])).getD [], 0, fs.quota, fs.badAt⟩
    [Event.log, Event.openFile (path.Join [s.Dir, filename])]
  rw [← sum_lengths_eq, Int.zero_add] at h2
  rcases hr : server.uploadLoop GoError.EOF chunks 0
    ⟨(fs.files.lookup (path.Join [s.Dir, filename])).getD [], 0, fs.quota, fs.badAt⟩
    [Event.log, Event.openFile (path.Join [s.Dir, filename])] with ⟨err, size, file1, tr⟩
  rw [hr] at h1 h2 h4
  simp only [if_true] at h1 h2 h4
  subst h1 h2 h4
  simp only
  rw [statuses_trace]
  by_cases h : ((chunks.map List.length).sum : Int) = (strconv.Atoi sizeText).1
  · rw [if_neg (not_not.mpr h), if_pos h]
  · rw [if_pos h, if_neg h]

/-- C2, at an upload of three bytes declared as three. -/
theorem upload_status_witness :
    ((uploadMD "a.txt" "3").get "filename" = "a.txt".toList :: []
      ∧ (uploadMD "a.txt" "3").get "size" = "3".toList :: []
      ∧ emptyFS.readOnly = false ∧ ([[1, 2, 3]].map List.length).sum < 2 ^ 63) ∧
    statuses (server.Upload dataServer emptyFS
        ⟨some (uploadMD "a.txt" "3"), [[1, 2, 3]], GoError.EOF, none⟩).trace
      = [if (([[1, 2, 3]].map List.length).sum : Int) = (strconv.Atoi "3".toList).1
          then StatusCode.Ok else StatusCode.Failed] :=
  ⟨⟨by decide, by decide, by decide, by decide⟩,
    (upload_status dataServer emptyFS (uploadMD "a.txt" "3") [[1, 2, 3]] none "a.txt".toList
      "3".toList [] [] (by decide) (by decide) (by decide) (by decide)).1⟩

/-- C3, as stated, fails: the server of `/srv/data` takes the declared filename
`../a.txt` as it is, opens `/srv/a.txt`, which is not below `/srv/data/`, and
accepts the upload with status `Ok`; for `a.txt` it opens `/srv/data/a.txt`.
A server whose directory is the empty string opens an absolute filename as
it is. -/
theorem upload_leaves_root :
    server.Upload dataServer emptyFS
        ⟨some (uploadMD "../a.txt" "3"), [[1, 2, 3]], GoError.EOF, none⟩
      = ⟨Outcome.returned none,
          [Event.log, Event.openFile "/srv/a.txt".toList, Event.recv [1, 2, 3],
            Event.write [1, 2, 3], Event.sendAndClose StatusCode.Ok],
          some ⟨[1, 2, 3], 3, none, none⟩⟩
    ∧ List.isPrefixOf "/srv/data/".toList "/srv/a.txt".toList = false
    ∧ (server.Upload dataServer emptyFS
        ⟨some (uploadMD "a.txt" "3"), [[1, 2, 3]], GoError.EOF, none⟩).trace.take 2
      = [Event.log, Event.openFile "/srv/data/a.txt".toList]
    ∧ (server.Upload ⟨[]⟩ emptyFS
        ⟨some (uploadMD "/etc/passwd" "3"), [[1, 2, 3]], GoError.EOF, none⟩).trace.take 2
      = [Event.log, Event.openFile "/etc/passwd".toList] := by
  decide

/-- C3, amended: for every server directory and every declared filename
without a `..` element (and, when the server directory is the empty string,
a filename that does not start with a slash and is not empty), the file that
`Upload` opens is the entry that the elements of the filename lead to, one
below the other, from the cleaned server directory; every such element is a
single name: not empty, without a slash, and neither `.` nor `..`. -/
theorem upload_dest_below_root (s : server) (fs : FS) (md : MD) (chunks : List Chunk)
    (ending : GoError) (closeErr : Option GoError) (filename sizeText : GoString)
    (rest1 rest2 : List GoString)
    (hfn : md.get "filename" = filename :: rest1) (hsz : md.get "size" = sizeText :: rest2)
    (hnd : ['.', '.'] ∉ path.split filename)
    (hdir : s.Dir = [] → ∃ c rest, filename = c :: rest ∧ c ≠ '/') :
    (∃ rest : List Event,
      (server.Upload s fs ⟨some md, chunks, ending, closeErr⟩).trace
        = Event.log
          :: Event.openFile ((path.elems filename).foldl path.child (path.Clean s.Dir))
          :: rest)
    ∧ ∀ e ∈ path.elems filename, e ≠ [] ∧ '/' ∉ e ∧ e ≠ ['.'] ∧ e ≠ ['.', '.'] := by
  constructor
  · rw [← path.Join_elems s.Dir filename hnd hdir]
    simp only [server.Upload, hfn, hsz]
    cases hopen : os.OpenFile fs (path.Join [s.Dir, filename]) with
    | error err => exact ⟨[], rfl⟩
    | ok file =>
      simp only
      have h4 := server.uploadLoop_trace ending chunks 0 file
        [Event.log, Event.openFile (path.Join [s.Dir, filename])]
      rcases hr : server.uploadLoop ending chunks 0 file
        [Event.log, Event.openFile (path.Join [s.Dir, filename])] with ⟨err, size, file1, tr⟩
      rw [hr] at h4
      simp only at h4
      subst h4
      cases err with
      | none => exact ⟨_, rfl⟩
      | some e => exact ⟨_, rfl⟩
  · intro e he
    have h := path.elems_spec filename e he
    refine ⟨h.1, h.2.1, h.2.2, ?_⟩
    intro h0
    rw [path.elems, List.mem_filter] at he
    exact hnd (h0 ▸ he.1)

/-- C3 amended, at the server of `/srv/data` and the filename `sub/./a.txt`,
which leads to `/srv/data/sub/a.txt`. -/
theorem upload_dest_below_root_witness :
    ((uploadMD "sub/./a.txt" "3").get "filename" = "sub/./a.txt".toList :: []
      ∧ (uploadMD "sub/./a.txt" "3").get "size" = "3".toList :: []
      ∧ ['.', '.'] ∉ path.split "sub/./a.txt".toList
      ∧ (dataServer.Dir = [] → ∃ c rest, "sub/./a.txt".toList = c :: rest ∧ c ≠ '/')) ∧
    (∃ rest : List Event,
      (server.Upload dataServer emptyFS
          ⟨some (uploadMD "sub/./a.txt" "3"), [[1, 2, 3]], GoError.EOF, none⟩).trace
        = Event.log
          :: Event.openFile ((path.elems "sub/./a.txt".toList).foldl path.child
              (path.Clean dataServer.Dir))
          :: rest)
    ∧ (path.elems "sub/./a.txt".toList).foldl path.child (path.Clean dataServer.Dir)
      = "/srv/data/sub/a.txt".toList :=
  ⟨⟨by decide, by decide, by decide, fun h => absurd h (by decide)⟩,
    (upload_dest_below_root dataServer emptyFS (uploadMD "sub/./a.txt" "3") [[1, 2, 3]]
      GoError.EOF none "sub/./a.txt".toList "3".toList [] [] (by decide) (by decide)
      (by decide) (fun h => absurd h (by decide))).1,
    by decide⟩

/-- C4, as stated, fails: `/srv/data/a.txt` holds five bytes, an upload of the
two bytes `1, 2` declared as two ends cleanly with status `Ok`, and the file
then holds `1, 2, 9, 9, 9`, which is not the concatenation of the chunks. -/
theorem upload_keeps_old_tail :
    (server.Upload dataServer usedFS
        ⟨some (uploadMD "a.txt" "2"), [[1, 2]], GoError.EOF, none⟩).outcome
      = Outcome.returned none
    ∧ statuses (server.Upload dataServer usedFS
        ⟨some (uploadMD "a.txt" "2"), [[1, 2]], GoError.EOF, none⟩).trace = [StatusCode.Ok]
    ∧ (server.Upload dataServer usedFS
        ⟨some (uploadMD "a.txt" "2"), [[1, 2]], GoError.EOF, none⟩).file.map File.content
      = some [1, 2, 9, 9, 9]
    ∧ (server.Upload dataServer usedFS
        ⟨some (uploadMD "a.txt" "2"), [[1, 2]], GoError.EOF, none⟩).file.map File.content
      ≠ some [[1, 2]].flatten := by
  decide

/-- C4, amended: when the metadata has its entries, the destination opens, the
stream ends with `io.EOF` and no write fails, the destination file holds,
after `Upload`, the concatenation of the received chunks followed by what the
file held before beyond that length; so it holds exactly the concatenation
when the file was absent, empty or not longer than what was received. -/
theorem upload_file_content (s : server) (fs : FS) (md : MD) (chunks : List Chunk)
    (closeErr : Option GoError) (filename sizeText : GoString) (rest1 rest2 : List GoString)
    (hfn : md.get "filename" = filename :: rest1) (hsz : md.get "size" = sizeText :: rest2)
    (hopen : fs.readOnly = false) (hquota : fs.quota = none) :
    (server.Upload s fs ⟨some md, chunks, GoError.EOF, closeErr⟩).file.map File.content
        = some (chunks.flatten
            ++ ((fs.files.lookup (path.Join [s.Dir, filename])).getD []).drop
                chunks.flatten.length)
    ∧ (((fs.files.lookup (path.Join [s.Dir, filename])).getD []).length
          ≤ chunks.flatten.length →
        (server.Upload s fs ⟨some md, chunks, GoError.EOF, closeErr⟩).file.map File.content
          = some chunks.flatten) := by
  rw [server.Upload_run s fs md chunks GoError.EOF closeErr filename sizeText rest1 rest2
    hfn hsz hopen, hquota]
  have h1 := server.uploadLoop_fst GoError.EOF chunks 0
    ⟨(fs.files.lookup (path.Join [s.Dir, filename])).getD [], 0, none, fs.badAt⟩
    [Event.log, Event.openFile (path.Join [s.Dir, filename])]
  have h3 := server.uploadLoop_file GoError.EOF fs.badAt chunks 0
    ((fs.files.lookup (path.Join [s.Dir, filename])).getD []) 0
    [Event.log, Event.openFile (path.Join [s.Dir, filename])] (Nat.zero_le _)
  rcases hr : server.uploadLoop GoError.EOF chunks 0
    ⟨(fs.files.lookup (path.Join [s.Dir, filename])).getD [], 0, none, fs.badAt⟩
    [Event.log, Event.openFile (path.Join [s.Dir, filename])] with ⟨err, size, file1, tr⟩
  rw [hr] at h1 h3
  simp only [if_true, overwrite_zero] at h1 h3
  subst h1 h3
  refine ⟨rfl, ?_⟩
  intro hle
  simp only [Option.map_some']
  rw [List.drop_of_length_le hle, List.append_nil]

/-- C4 amended, at the upload of two bytes over the file of five. -/
theorem upload_file_content_witness :
    ((uploadMD "a.txt" "2").get "filename" = "a.txt".toList :: []
      ∧ (uploadMD "a.txt" "2").get "size" = "2".toList :: []
      ∧ usedFS.readOnly = false ∧ usedFS.quota = none) ∧
    (server.Upload dataServer usedFS
        ⟨some (uploadMD "a.txt" "2"), [[1, 2]], GoError.EOF, none⟩).file.map File.content
      = some ([[1, 2]].flatten
          ++ ((usedFS.files.lookup (path.Join [dataServer.Dir, "a.txt".toList])).getD []).drop
              [[1, 2]].flatten.length) :=
  ⟨⟨by decide, by decide, by decide, by decide⟩,
    (upload_file_content dataServer usedFS (uploadMD "a.txt" "2") [[1, 2]] none
      "a.txt".toList "2".toList [] [] (by decide) (by decide) (by decide) (by decide)).1⟩

/-- C5: when the header has its `filename` and `size` entries, the local file
opens and the chunk stream ends with `io.EOF`, `download` returns normally if
the lengths of the received chunks add up to the number that `strconv.Atoi`
reads from the `size` entry, and ends in `log.Fatal` in every other case; for
an entry that `strconv.Itoa` wrote for the size `n`, that number is `n`. -/
theorem download_outcome (fs : FS) (header : MD) (chunks : List Chunk)
    (filename sizeText : GoString) (rest1 rest2 : List GoString)
    (hfn : header.get "filename" = filename :: rest1)
    (hsz : header.get "size" = sizeText :: rest2)
    (hopen : fs.readOnly = false) (hsize : (chunks.map List.length).sum < 2 ^ 63) :
    (client.download fs ⟨none, Except.ok header, chunks, GoError.EOF⟩).1
      = (if ((chunks.map List.length).sum : Int) = (strconv.Atoi sizeText).1
        then Outcome.returned none
        else Outcome.fatal "recv size not matched data size" none)
    ∧ ∀ n : Nat, n < 2 ^ 63 → sizeText = strconv.Itoa (n : Int) →
        ((client.download fs ⟨none, Except.ok header, chunks, GoError.EOF⟩).1
            = Outcome.returned none ↔ (chunks.map List.length).sum = n)
        ∧ ((chunks.map List.length).sum ≠ n →
          (client.download fs ⟨none, Except.ok header, chunks, GoError.EOF⟩).1
            = Outcome.fatal "recv size not matched data size" none) := by
  suffices main : (client.download fs ⟨none, Except.ok header, chunks, GoError.EOF⟩).1
      = (if ((chunks.map List.length).sum : Int) = (strconv.Atoi sizeText).1
        then Outcome.returned none
        else Outcome.fatal "recv size not matched data size" none) by
    refine ⟨main, fun n hn hs => ?_⟩
    rw [main, hs, strconv.Atoi_Itoa n hn]
    by_cases h : (chunks.map List.length).sum = n
    · rw [if_pos (by rw [h])]
      exact ⟨⟨fun _ => h, fun _ => rfl⟩, fun h1 => absurd h h1⟩
    · rw [if_neg (fun h1 => h (Int.ofNat_inj.mp h1))]
      exact ⟨⟨fun h1 => absurd h1 (by simp), fun h1 => absurd h1 h⟩, fun _ => rfl⟩
  rw [client.download_run fs header chunks GoError.EOF filename sizeText rest1 rest2
    hfn hsz hopen,
    client.downloadLoop_eq GoError.EOF chunks 0 _ [],
    server.uploadLoop_size GoError.EOF chunks 0 _ [] (le_refl _)
      (by rw [← sum_lengths_eq]; simpa using (by exact_mod_cast hsize :
        ((chunks.map List.length).sum : Int) < 2 ^ 63)),
    ← sum_lengths_eq, Int.zero_add]
  simp only [if_true]
  by_cases h : ((chunks.map List.length).sum : Int) = (strconv.Atoi sizeText).1
  · rw [if_neg (not_not.mpr h), if_pos h]
  · rw [if_pos h, if_neg h]

/-- C5, at a download of two bytes declared as three. -/
theorem download_outcome_witness :
    ((uploadMD "a.txt" "3").get "filename" = "a.txt".toList :: []
      ∧ (uploadMD "a.txt" "3").get "size" = "3".toList :: []
      ∧ emptyFS.readOnly = false ∧ ([[1, 2]].map List.length).sum < 2 ^ 63) ∧
    (client.download emptyFS ⟨none, Except.ok (uploadMD "a.txt" "3"), [[1, 2]], GoError.EOF⟩).1
      = (if (([[1, 2]].map List.length).sum : Int) = (strconv.Atoi "3".toList).1
        then Outcome.returned none
        else Outcome.fatal "recv size not matched data size" none) :=
  ⟨⟨by decide, by decide, by decide, by decide⟩,
    (download_outcome emptyFS (uploadMD "a.txt" "3") [[1, 2]] "a.txt".toList "3".toList [] []
      (by decide) (by decide) (by decide) (by decide)).1⟩

/-- C6, the code at metadata without a `filename` entry: `Upload` faults on
`md["filename"][0]`; it returns the data-loss error only when there is no
metadata at all. -/
theorem upload_faults_without_filename :
    server.Upload dataServer emptyFS ⟨some namelessMD, [[1, 2, 3]], GoError.EOF, none⟩
      = ⟨Outcome.panicked "index out of range [0] with length 0", [], none⟩
    ∧ server.Upload dataServer emptyFS ⟨none, [[1, 2, 3]], GoError.EOF, none⟩
      = ⟨Outcome.returned (some (GoError.status "DataLoss"
          "ClientStreamingEcho: failed to get metadata")), [], none⟩ := by
  decide

/-- C7: a file of `S` bytes, read by reads that return `min(Size4MB, bytes left)`
and sent over a sound transport, leaves both driver loops (`upload` of the
client, `Download` of the server) at `io.EOF` with the same chunks sent, whose
lengths are `S / Size4MB` times `Size4MB = 4194304` and then `S % Size4MB` when
that is not zero.  Every chunk is non-empty and at most `Size4MB` long, an
empty file sends no chunk, and `Size4MB + 1` bytes are sent as two chunks of
`Size4MB` bytes and of 1 byte. -/
theorem driver_chunk_lengths (B : List Byte) (quota : Option Nat) (fuel : Nat)
    (hfuel : B.length / Size4MB + 2 ≤ fuel) :
    ∃ cs : List Chunk,
      client.uploadLoop fuel ⟨B, 0, quota, none⟩ ⟨[], none⟩
        = some (true, ⟨B, B.length, quota, none⟩, ⟨cs, none⟩)
      ∧ server.downloadLoop fuel ⟨B, 0, quota, none⟩ ⟨[], none⟩
        = some (none, ⟨B, B.length, quota, none⟩, ⟨cs, none⟩)
      ∧ Size4MB = 4194304
      ∧ cs.map List.length
        = List.replicate (B.length / Size4MB) Size4MB
          ++ (if B.length % Size4MB = 0 then [] else [B.length % Size4MB])
      ∧ (∀ c ∈ cs, 0 < c.length ∧ c.length ≤ Size4MB)
      ∧ (B.length = 0 → cs = [])
      ∧ (B.length = Size4MB + 1 → cs.map List.length = [Size4MB, 1]) := by
  obtain ⟨cs, hrun, _, hlen⟩ := client.uploadLoop_run B quota fuel 0 [] (Nat.zero_le _)
    (fuel_enough _ _ hfuel)
  simp only [List.nil_append, Nat.sub_zero] at hrun hlen
  have hmem : ∀ c ∈ cs, 0 < c.length ∧ c.length ≤ Size4MB := by
    intro c hc
    have hin : c.length ∈ chunkLens B.length := by
      rw [← hlen]
      exact List.mem_map_of_mem _ hc
    unfold chunkLens at hin
    rcases List.mem_append.mp hin with h | h
    · rw [(List.mem_replicate.mp h).2]
      exact ⟨Size4MB_pos, le_refl _⟩
    · by_cases h0 : B.length % Size4MB = 0
      · simp [h0] at h
      · simp only [h0, if_false, List.mem_singleton] at h
        rw [h]
        exact ⟨Nat.pos_of_ne_zero h0, le_of_lt (Nat.mod_lt _ Size4MB_pos)⟩
  refine ⟨cs, hrun, server.downloadLoop_of_uploadLoop _ _ _ _ _ hrun, Size4MB_eq, hlen, hmem,
    ?_, ?_⟩
  · intro h0
    rw [h0, chunkLens_zero] at hlen
    simpa using hlen
  · intro h1
    have hsub : Size4MB + 1 - Size4MB = 1 := Nat.add_sub_cancel_left Size4MB 1
    rw [hlen, h1, chunkLens_step (Size4MB + 1) (Nat.succ_pos _),
      Nat.min_eq_left (Nat.le_succ _), hsub,
      chunkLens_step 1 Nat.one_pos, Nat.min_eq_right (le_of_lt (by decide : 1 < Size4MB)),
      Nat.sub_self, chunkLens_zero]

/-- C7, at a file of three bytes. -/
theorem driver_chunk_lengths_witness :
    [1, 2, 3].length / Size4MB + 2 ≤ 2 ∧
    ∃ cs : List Chunk,
      client.uploadLoop 2 ⟨[1, 2, 3], 0, none, none⟩ ⟨[], none⟩
        = some (true, ⟨[1, 2, 3], [1, 2, 3].length, none, none⟩, ⟨cs, none⟩)
      ∧ server.downloadLoop 2 ⟨[1, 2, 3], 0, none, none⟩ ⟨[], none⟩
        = some (none, ⟨[1, 2, 3], [1, 2, 3].length, none, none⟩, ⟨cs, none⟩)
      ∧ Size4MB = 4194304
      ∧ cs.map List.length
        = List.replicate ([1, 2, 3].length / Size4MB) Size4MB
          ++ (if [1, 2, 3].length % Size4MB = 0 then [] else [[1, 2, 3].length % Size4MB])
      ∧ (∀ c ∈ cs, 0 < c.length ∧ c.length ≤ Size4MB)
      ∧ ([1, 2, 3].length = 0 → cs = [])
      ∧ ([1, 2, 3].length = Size4MB + 1 → cs.map List.length = [Size4MB, 1]) :=
  ⟨by decide, driver_chunk_lengths [1, 2, 3] none 2 (by decide)⟩

/-- C8, the code at a full device: the write of the received chunk fails (no
byte is written), and `Upload` still makes the status call with `Ok` and
returns nil. -/
theorem upload_ignores_write_error :
    (File.Write ⟨[], 0, some 0, none⟩ [1, 2, 3]).2
      = (0, some (GoError.errno "no space left on device"))
    ∧ server.Upload dataServer fullFS ⟨some (uploadMD "a.txt" "3"), [[1, 2, 3]], GoError.EOF, none⟩
      = ⟨Outcome.returned none,
          [Event.log, Event.openFile "/srv/data/a.txt".toList, Event.recv [1, 2, 3],
            Event.write [1, 2, 3], Event.sendAndClose StatusCode.Ok],
          some ⟨[], 0, some 0, none⟩⟩ := by
  decide

/-- C9, the code at a name with no file: `os.Stat` fails, `Download` logs that,
and then faults on `stats.Size()` before any header is published. -/
theorem download_faults_on_missing_file :
    server.Download dataServer emptyFS "Nov  4 10:00:00.000000000".toList none
        "missing.txt".toList 4
      = some ⟨Outcome.panicked "invalid memory address or nil pointer dereference",
          [Event.log, Event.log], ⟨[], none⟩⟩ := by
  decide

/-- C10: when the metadata has its entries and the destination opens, `Upload`
receives and writes every chunk and then, if the stream ends with `io.EOF`,
makes exactly one status call, after the last chunk, and returns what that
call returns; if the stream ends with another error, it returns that error
wrapped and makes no status call. -/
theorem upload_one_status (s : server) (fs : FS) (md : MD) (chunks : List Chunk)
    (ending : GoError) (closeErr : Option GoError) (filename sizeText : GoString)
    (rest1 rest2 : List GoString)
    (hfn : md.get "filename" = filename :: rest1) (hsz : md.get "size" = sizeText :: rest2)
    (hopen : fs.readOnly = false) :
    (ending = GoError.EOF →
      (∃ code : StatusCode,
        (server.Upload s fs ⟨some md, chunks, ending, closeErr⟩).trace
          = [Event.log, Event.openFile (path.Join [s.Dir, filename])] ++ chunkEvents chunks
            ++ [Event.sendAndClose code])
      ∧ (server.Upload s fs ⟨some md, chunks, ending, closeErr⟩).outcome
          = Outcome.returned closeErr)
    ∧ (ending ≠ GoError.EOF →
      (server.Upload s fs ⟨some md, chunks, ending, closeErr⟩).outcome
          = Outcome.returned (some (GoError.wrapf ending
              "failed unexpectadely while reading chunks from stream"))
      ∧ (server.Upload s fs ⟨some md, chunks, ending, closeErr⟩).trace
          = [Event.log, Event.openFile (path.Join [s.Dir, filename])] ++ chunkEvents chunks
      ∧ statuses (server.Upload s fs ⟨some md, chunks, ending, closeErr⟩).trace = []) := by
  rw [server.Upload_run s fs md chunks ending closeErr filename sizeText rest1 rest2
    hfn hsz hopen]
  have h1 := server.uploadLoop_fst ending chunks 0
    ⟨(fs.files.lookup (path.Join [s.Dir, filename])).getD [], 0, fs.quota, fs.badAt⟩
    [Event.log, Event.openFile (path.Join [s.Dir, filename])]
  have h4 := server.uploadLoop_trace ending chunks 0
    ⟨(fs.files.lookup (path.Join [s.Dir, filename])).getD [], 0, fs.quota, fs.badAt⟩
    [Event.log, Event.openFile (path.Join [s.Dir, filename])]
  rcases hr : server.uploadLoop ending chunks 0
    ⟨(fs.files.lookup (path.Join [s.Dir, filename])).getD [], 0, fs.quota, fs.badAt⟩
    [Event.log, Event.openFile (path.Join [s.Dir, filename])] with ⟨err, size, file1, tr⟩
  rw [hr] at h1 h4
  simp only at h1 h4
  subst h4
  constructor
  · intro he
    rw [if_pos he] at h1
    subst h1
    exact ⟨⟨_, rfl⟩, rfl⟩
  · intro he
    rw [if_neg he] at h1
    subst h1
    refine ⟨rfl, rfl, ?_⟩
    simp [statuses_append, statuses_chunkEvents, statuses]

/-- C10, at a stream that breaks after one chunk. -/
theorem upload_one_status_witness :
    ((uploadMD "a.txt" "3").get "filename" = "a.txt".toList :: []
      ∧ (uploadMD "a.txt" "3").get "size" = "3".toList :: []
      ∧ emptyFS.readOnly = false) ∧
    (server.Upload dataServer emptyFS ⟨some (uploadMD "a.txt" "3"), [[1, 2]],
        GoError.errno "connection reset", none⟩).outcome
      = Outcome.returned (some (GoError.wrapf (GoError.errno "connection reset")
          "failed unexpectadely while reading chunks from stream")) :=
  ⟨⟨by decide, by decide, by decide⟩,
    ((upload_one_status dataServer emptyFS (uploadMD "a.txt" "3") [[1, 2]]
      (GoError.errno "connection reset") none "a.txt".toList "3".toList [] []
      (by decide) (by decide) (by decide)).2 (by decide)).1⟩

end testgrpc
